import Mathlib

/-!
The containers `Vector` and `String` of rics over an explicit memory model.

A shallow embedding of `src/Memory.hpp`, `src/Vector.hpp` and `src/String.hpp`.

* `SizeType` is the default `::std::size_t` of a 64-bit target: a natural number
  below `2 ^ 64`, every arithmetic result reduced modulo `2 ^ 64`.
* A heap buffer is the list of its cells; a cell is `none` while its value is
  indeterminate (fresh heap memory, bytes of a union seen through the other
  member).  A pointer is `none` (the null pointer) or the buffer it owns.
* An access outside the addressed array, through a null pointer, to the inactive
  member of the union, or a branch on an indeterminate value is undefined
  behaviour in C++; the embedding stops there with a `Fault`.
* Calls of `AllocatorType::allocate` and `AllocatorType::deallocate` are recorded,
  in order, in the log that every operation of `Mem` returns next to its result.
-/

namespace rics

/-! ## Memory model -/

/-- Undefined behaviour reached by an operation. -/
inductive Fault where
  | nullDeref
  | outOfBounds
  | inactiveMember
  | indeterminate
  deriving DecidableEq, Repr

deriving instance DecidableEq for Except

/-- One call of the allocator: `allocate(bytes)` with its outcome (`ok = false` is the
null handle), or `deallocate(p)` of a non-null `p`. -/
inductive MemEvent where
  | alloc (bytes : Nat) (ok : Bool)
  | free
  deriving DecidableEq, Repr

/-- Number of values of `SizeType` (`::std::size_t`, 64 bits). -/
def sizeMod : Nat := 2 ^ 64

/-- Conversion of a mathematical integer to `SizeType`. -/
def wrap (z : Int) : Nat := (z % (2 ^ 64 : Int)).toNat

/-- The instantiation: `sizeof(T)` and the behaviour of `AllocatorType::allocate`
(`allocOk bytes = false` when it returns the null handle for that request). -/
structure Env where
  sizeofT : Nat
  allocOk : Nat → Bool

/-- The array a non-null pointer addresses. -/
abbrev Buf (α : Type) := List (Option α)

/-- Pointer `T*`: `none` is `nullptr`. -/
abbrev Ptr (α : Type) := Option (Buf α)

/-- Result of an operation that calls the allocator: a fault, or the value together
with the allocator calls made. -/
def Mem (α : Type) : Type := Except Fault (α × List MemEvent)

instance {α : Type} [DecidableEq α] : DecidableEq (Mem α) :=
  inferInstanceAs (DecidableEq (Except Fault (α × List MemEvent)))

def Mem.pure {α : Type} (a : α) : Mem α := Except.ok (a, [])

def Mem.bind {α β : Type} (m : Mem α) (f : α → Mem β) : Mem β :=
  match m with
  | Except.error e => Except.error e
  | Except.ok (a, l) =>
    match f a with
    | Except.error e => Except.error e
    | Except.ok (b, l2) => Except.ok (b, l ++ l2)

instance : Monad Mem where
  pure := Mem.pure
  bind := Mem.bind

/-- An allocator-free computation seen as one with an empty log. -/
def Mem.lift {α : Type} (r : Except Fault α) : Mem α :=
  match r with
  | Except.error e => Except.error e
  | Except.ok a => Except.ok (a, [])

instance : MonadLift (Except Fault) Mem where
  monadLift := Mem.lift

/-- The value an operation produced, without its log. -/
def Mem.value {α : Type} (m : Mem α) : Except Fault α :=
  match m with
  | Except.error e => Except.error e
  | Except.ok (a, _) => Except.ok a

/-- The rvalue `b[i]`. -/
def Buf.read {α : Type} (b : Buf α) (i : Nat) : Except Fault (Option α) :=
  match b.get? i with
  | some c => Except.ok c
  | none => Except.error Fault.outOfBounds

/-- The assignment `b[i] = c`. -/
def Buf.write {α : Type} (b : Buf α) (i : Nat) (c : Option α) : Except Fault (Buf α) :=
  if i < b.length then Except.ok (b.set i c) else Except.error Fault.outOfBounds

/-- The rvalue `p[i]`. -/
def Ptr.read {α : Type} (p : Ptr α) (i : Nat) : Except Fault (Option α) :=
  match p with
  | none => Except.error Fault.nullDeref
  | some b => b.read i

/-- The assignment `p[i] = c`. -/
def Ptr.write {α : Type} (p : Ptr α) (i : Nat) (c : Option α) : Except Fault (Ptr α) :=
  match p with
  | none => Except.error Fault.nullDeref
  | some b => do
    let b2 ← b.write i c
    pure (some b2)

/-- Memory.hpp:15 `DefaultAllocator::allocate` through `Vector::allocate` (Vector.hpp:18-25)
and `String::allocate` (String.hpp:19-25): the request is `count * sizeof(T)` bytes in
`SizeType`; a null handle stays null, otherwise the block holds as many fresh cells as
the bytes obtained give room for. -/
def allocate {α : Type} (E : Env) (count : Nat) : Mem (Ptr α) :=
  let bytes := (count * E.sizeofT) % sizeMod
  if E.allocOk bytes then
    Except.ok (some (List.replicate (bytes / E.sizeofT) none), [MemEvent.alloc bytes true])
  else
    Except.ok (none, [MemEvent.alloc bytes false])

/-- Memory.hpp:16 `DefaultAllocator::deallocate` through the containers' `deallocate`:
releasing the null pointer does nothing. -/
def deallocate {α : Type} (p : Ptr α) : Mem Unit :=
  match p with
  | none => Except.ok ((), [])
  | some _ => Except.ok ((), [MemEvent.free])

/-- The loop `for (SizeType i = lo; i < lo + n; i++) body(i)` over a state. -/
def forRange {σ : Type} (body : Nat → σ → Except Fault σ) : Nat → Nat → σ → Except Fault σ
  | _, 0, s => Except.ok s
  | lo, n + 1, s =>
    match body lo s with
    | Except.error e => Except.error e
    | Except.ok s2 => forRange body (lo + 1) n s2

/-! ## Vector.hpp -/

/-- Vector.hpp:13-17: the three data members. -/
structure Vector (α : Type) where
  data_ : Ptr α
  size_ : Nat
  capacity_ : Nat
  deriving DecidableEq

namespace Vector

variable {α : Type}

/-- Vector.hpp:40-44 `Vector()`. -/
def init : Vector α := { data_ := none, size_ := 0, capacity_ := 0 }

/-- Vector.hpp:39 `size()`. -/
def size (v : Vector α) : Nat := v.size_

/-- Vector.hpp:81 `capacity()`. -/
def capacity (v : Vector α) : Nat := v.capacity_

/-- Vector.hpp:80 `max_size()`: `numeric_limits<size_type>::max()`. -/
def max_size : Nat := sizeMod - 1

/-- Vector.hpp:63 `operator[]` read. -/
def index (v : Vector α) (i : Nat) : Except Fault (Option α) := Ptr.read v.data_ i

/-- Vector.hpp:63 `operator[]` write: `data_[i] = c`. -/
def store (v : Vector α) (i : Nat) (c : Option α) : Except Fault (Vector α) := do
  let p ← Ptr.write v.data_ i c
  pure { v with data_ := p }

/-- Vector.hpp:110-112: body of the copy loop, `data_[i] = std::move(temp_data[i])`. -/
def moveCell (temp_data : Ptr α) (i : Nat) (v : Vector α) : Except Fault (Vector α) := do
  let c ← Ptr.read temp_data i
  v.store i c

/-- Vector.hpp:89-116 `new_length<CopyOldData>(l)`. -/
def new_length (E : Env) (copyOldData : Bool) (v : Vector α) (l : Nat) : Mem (Vector α) := do
  let v1 ← (if v.capacity_ = 0 then do
      let p ← allocate E 2
      pure { v with data_ := p, capacity_ := 2 }
    else pure v : Mem (Vector α))
  if l < v1.capacity_ then
    pure { v1 with size_ := l }
  else do
    let temp_data := v1.data_
    let grown := (v1.capacity_ + v1.capacity_ / 2) % sizeMod
    let v2 ← (if grown > max_size then do
        let p ← allocate E max_size
        pure { v1 with data_ := p, capacity_ := max_size }
      else do
        let p ← allocate E grown
        pure { v1 with data_ := p, capacity_ := grown } : Mem (Vector α))
    let v3 ← Mem.lift (if copyOldData then
        (match temp_data with
          | some _ => forRange (moveCell temp_data) 0 (min v2.size_ l) v2
          | none => Except.ok v2)
      else Except.ok v2)
    deallocate temp_data
    pure { v3 with size_ := l }

/-- Vector.hpp:69-73 `push_back(T&& v)`; the returned reference is `data_[size_ - 1]`. -/
def push_back (E : Env) (v : Vector α) (x : α) : Mem (Vector α) := do
  let v1 ← new_length E true v ((v.size_ + 1) % sizeMod)
  Mem.lift (v1.store (wrap ((v1.size_ : Int) - 1)) (some x))

/-- Vector.hpp:74-78 `pop_back()`: the value moved out and the vector left behind. -/
def pop_back (E : Env) (v : Vector α) : Mem (Option α × Vector α) := do
  let t ← Mem.lift (v.index (wrap ((v.size_ : Int) - 1)))
  let v1 ← new_length E true v (wrap ((v.size_ : Int) - 1))
  pure (t, v1)

/-- Vector.hpp:79 `resize(s)`. -/
def resize (E : Env) (v : Vector α) (s : Nat) : Mem (Vector α) := new_length E true v s

/-- Vector.hpp:84-88 `delete_if_has_data()`. -/
def delete_if_has_data (v : Vector α) : Mem (Vector α) := do
  (if v.data_.isSome && v.size_ != 0 then deallocate v.data_ else pure () : Mem Unit)
  pure { v with data_ := none, size_ := 0 }

/-- Vector.hpp:62 `~Vector()`. -/
def destroy (v : Vector α) : Mem (Vector α) := delete_if_has_data v

/-- Vector.hpp:61 `Vector(SizeType size)`; the members start from their default
initializers. -/
def of_size (E : Env) (n : Nat) : Mem (Vector α) := new_length E false init n

/-- Vector.hpp:117-120 `set<I>(args)`: `data_[I] = std::get<I>(args)`. -/
def setArg (args : List α) (i : Nat) (v : Vector α) : Except Fault (Vector α) :=
  match args.get? i with
  | some x => v.store i (some x)
  | none => Except.error Fault.outOfBounds

/-- Vector.hpp:56-60 `Vector(const Ts&&... args)`: `new_length(sizeof...(args))`, then
`set<I>` for `I = 0, 1, ...` in order (Vector.hpp:121-124 `set_all`). -/
def of_values (E : Env) (args : List α) : Mem (Vector α) := do
  let v1 ← new_length E false init args.length
  Mem.lift (forRange (setArg args) 0 args.length v1)

/-- Vector.hpp:45-50 `Vector(const Vector& o)`; the loop body `data_[i] = o.data_[i]` is
`moveCell o.data_`. -/
def copy (E : Env) (o : Vector α) : Mem (Vector α) :=
  if o.size_ = 0 ∨ o.data_.isNone then pure init
  else do
    let v1 ← delete_if_has_data (init : Vector α)
    let v2 ← new_length E false v1 o.size_
    Mem.lift (forRange (moveCell o.data_) 0 o.size_ v2)

/-- Vector.hpp:51-55 `Vector(Vector&& o)`: the new vector, whose `capacity_` keeps its
default initializer 0, and the source after `o.delete_if_has_data()`.  The new vector
keeps the address of the region that call released; the embedding shows its cells. -/
def move (o : Vector α) : Mem (Vector α × Vector α) := do
  let w : Vector α := { data_ := o.data_, size_ := o.size_, capacity_ := 0 }
  let o2 ← delete_if_has_data o
  pure (w, o2)

/-- Calls `push_back(x)` for every `x` of the list, in order. -/
def pushAll (E : Env) (v : Vector α) : List α → Mem (Vector α)
  | [] => pure v
  | x :: xs => do
    let v1 ← push_back E v x
    pushAll E v1 xs

end Vector

/-- A request the allocator satisfies with exactly `n` cells. -/
def Fits (E : Env) (n : Nat) : Prop :=
  0 < E.sizeofT ∧ n * E.sizeofT < 2 ^ 64 ∧ E.allocOk (n * E.sizeofT) = true


namespace Vector

variable {α : Type}

/-- A vector whose buffer exists with exactly `capacity_` cells and holds its `size_`
elements; the default-constructed vector has no buffer yet. -/
def Sound (v : Vector α) : Prop :=
  (v.capacity_ = 0 ∧ v.size_ = 0) ∨
  (2 ≤ v.capacity_ ∧ v.capacity_ < 2 ^ 64 ∧ v.size_ ≤ v.capacity_ ∧
    ∃ b, v.data_ = some b ∧ b.length = v.capacity_)

end Vector

/-- An instantiation with 4-byte elements whose allocator satisfies every request. -/
def intEnv : Env := { sizeofT := 4, allocOk := fun _ => true }


/-! ## String.hpp -/

/-- The value of `sizeof(T*)` on the 64-bit target. -/
def sizeofPtr : Nat := 8

/-- String.hpp:13-16: the union `data`; the constructor records which member was
written last. -/
inductive Data where
  | small (cells : Buf Nat)
  | large (p : Ptr Nat)
  deriving DecidableEq

/-- String.hpp:11-17: the data members of `String<T, SizeType, AllocatorType>`; a code
unit is the natural number it holds. -/
structure String where
  data : Data
  size : Nat
  deriving DecidableEq

/-- A `const T*` into an array: the array it addresses and the offset in it; the null
pointer has no array and offset 0. -/
structure CPtr where
  base : Ptr Nat
  off : Nat
  deriving DecidableEq

namespace String

/-- String.hpp:12 `small_str_max_size = sizeof(T*) / sizeof(T)`. -/
def small_str_max_size (E : Env) : Nat := sizeofPtr / E.sizeofT

/-- String.hpp:41 `npos = -1`. -/
def npos : Nat := wrap (-1)

/-- String.hpp:15: the default member initializer `small[small_str_max_size]{0}`. -/
def zeroed (E : Env) : Data := Data.small (List.replicate (small_str_max_size E) (some 0))

/-- String.hpp:18 `is_small()`. -/
def is_small (E : Env) (s : String) : Bool := decide (s.size ≤ small_str_max_size E)

/-- String.hpp:78 `length()`. -/
def length (s : String) : Nat := s.size

/-- The rvalue `data.small[i]`. -/
def readSmall (d : Data) (i : Nat) : Except Fault (Option Nat) :=
  match d with
  | Data.small cells => Buf.read cells i
  | Data.large _ => Except.error Fault.inactiveMember

/-- The rvalue `data.large`. -/
def readLarge (d : Data) : Except Fault (Ptr Nat) :=
  match d with
  | Data.large p => Except.ok p
  | Data.small _ => Except.error Fault.inactiveMember

/-- The assignment `data.small[i] = c`; when the pointer member was active the array
starts its lifetime with indeterminate cells. -/
def writeSmall (E : Env) (d : Data) (i : Nat) (c : Option Nat) : Except Fault Data :=
  match d with
  | Data.small cells => do
    let cells2 ← Buf.write cells i c
    pure (Data.small cells2)
  | Data.large _ => do
    let cells2 ← Buf.write (List.replicate (small_str_max_size E) none) i c
    pure (Data.small cells2)

/-- String.hpp:68-69 `operator[]` read: `(is_small() ? data.small : data.large)[i]`. -/
def get (E : Env) (s : String) (i : Nat) : Except Fault (Option Nat) :=
  if is_small E s then readSmall s.data i
  else do
    let p ← readLarge s.data
    Ptr.read p i

/-- String.hpp:68 `operator[]` write: `(is_small() ? data.small : data.large)[i] = c`. -/
def set (E : Env) (s : String) (i : Nat) (c : Option Nat) : Except Fault String :=
  if is_small E s then do
    let d ← writeSmall E s.data i c
    pure { s with data := d }
  else do
    let p ← readLarge s.data
    let p2 ← Ptr.write p i c
    pure { s with data := Data.large p2 }

/-- The pointer `(is_small() ? data.small : data.large) + off`. -/
def ptrAt (E : Env) (s : String) (off : Nat) : Except Fault CPtr :=
  if is_small E s then
    match s.data with
    | Data.small cells => Except.ok { base := some cells, off := off }
    | Data.large _ => Except.error Fault.inactiveMember
  else do
    let p ← readLarge s.data
    pure { base := p, off := off }

/-- String.hpp:116 `end() const`. -/
def end_ptr (E : Env) (s : String) : Except Fault CPtr := ptrAt E s s.size

/-- Body of the copy loops: `(is_small() ? data.small : data.large)[i] = src(i)`. -/
def copyInto (E : Env) (src : Nat → Except Fault (Option Nat)) (i : Nat) (s : String) :
    Except Fault String := do
  let c ← src i
  set E s i c

/-- The rvalue `str[i]` of a source array of code units. -/
def readArr (str : List Nat) (i : Nat) : Except Fault (Option Nat) :=
  match str.get? i with
  | some c => Except.ok (some c)
  | none => Except.error Fault.outOfBounds

/-- String.hpp:33-38 the private `String(SizeType size)`. -/
def mk_sized (E : Env) (size : Nat) : Mem String := do
  let s0 : String := { data := zeroed E, size := size }
  if size > small_str_max_size E then do
    let p ← allocate E size
    let p2 ← Mem.lift (Ptr.write p (wrap ((size : Int) - 1)) (some 0))
    pure { s0 with data := Data.large p2 }
  else pure s0

/-- String.hpp:81, 86, 96 `if (!is_small()) data.large = allocate(size);`. -/
def allocIfLarge (E : Env) (s : String) : Mem String :=
  if is_small E s then pure s
  else do
    let p ← allocate E s.size
    pure { s with data := Data.large p }

/-- String.hpp:79-83 `String(const T (&str)[N])`; `N` is the length of the array. -/
def of_array (E : Env) (str : List Nat) : Mem String := do
  let s0 : String := { data := zeroed E, size := str.length }
  let s1 ← allocIfLarge E s0
  Mem.lift (forRange (copyInto E (readArr str)) 0 s1.size s1)

/-- String.hpp:85-88 `String(const String& o)`. -/
def copy (E : Env) (o : String) : Mem String := do
  let s0 : String := { data := zeroed E, size := o.size }
  let s1 ← allocIfLarge E s0
  Mem.lift (forRange (copyInto E (get E o)) 0 s1.size s1)

/-- String.hpp:94-95 `for (size = 1; str[size - 1]; size++);` over the array `str`
points into.  Every iteration stops, leaves the array (a fault) or advances by one
unit, so `str.length + 1` iterations are never exhausted by an array shorter than
`2 ^ 64`; running out of them is reported as leaving the array. -/
def scanSize (str : List Nat) : Nat → Nat → Except Fault Nat
  | 0, _ => Except.error Fault.outOfBounds
  | fuel + 1, size =>
    match str.get? (wrap ((size : Int) - 1)) with
    | none => Except.error Fault.outOfBounds
    | some c => if c ≠ 0 then scanSize str fuel ((size + 1) % sizeMod) else Except.ok size

/-- String.hpp:93-98 `String(const T* str)`. -/
def of_ptr (E : Env) (str : List Nat) : Mem String := do
  let n ← Mem.lift (scanSize str (str.length + 1) 1)
  let s0 : String := { data := zeroed E, size := n }
  let s1 ← allocIfLarge E s0
  Mem.lift (forRange (copyInto E (readArr str)) 0 s1.size s1)

/-- The construction `String(lit)` from a string literal or an array `lit`: both
`String(const T (&)[N])` (String.hpp:79) and `String(const T*)` (String.hpp:93) take the
argument by an exact match, and overload resolution then prefers the non-template
constructor, so the array decays to a pointer to its first unit and the units are
scanned up to the first zero. -/
def of_literal (E : Env) (lit : List Nat) : Mem String := of_ptr E lit

/-- String.hpp:99 `String()`. -/
def init (E : Env) : String := { data := zeroed E, size := 0 }

/-- String.hpp:100-104 `operator=(const String& o)`. -/
def assign (E : Env) (s o : String) : Mem String := do
  let s1 ← allocIfLarge E s
  Mem.lift (forRange (copyInto E (get E o)) 0 s1.size s1)

/-- String.hpp:111, 122 `if (!is_small()) deallocate(data.large);`. -/
def freeIfLarge (E : Env) (s : String) : Mem Unit :=
  if is_small E s then pure ()
  else do
    let p ← Mem.lift (readLarge s.data)
    deallocate p

/-- String.hpp:110-112 `~String()`. -/
def destroy (E : Env) (s : String) : Mem Unit := freeIfLarge E s

/-- String.hpp:121: body of the loop, `nd[i] = is_small() ? data.small[i] : data.large[i]`. -/
def copyOut (E : Env) (s : String) (i : Nat) (nd : Ptr Nat) : Except Fault (Ptr Nat) := do
  let c ← get E s i
  Ptr.write nd i c

/-- String.hpp:130: body of the loop, `data.small[i] = c[i]`. -/
def copyIn (E : Env) (c : Ptr Nat) (i : Nat) (d : Data) : Except Fault Data := do
  let x ← Ptr.read c i
  writeSmall E d i x

/-- String.hpp:118-136 `resize(ns)`. -/
def resize (E : Env) (s : String) (ns : Nat) : Mem String := do
  let s1 ← (if ns > small_str_max_size E then do
      let nd ← allocate E ns
      let nd2 ← Mem.lift (forRange (copyOut E s) 0 (if ns > s.size then s.size else ns) nd)
      freeIfLarge E s
      pure { data := Data.large nd2, size := ns }
    else if is_small E s then
      pure { s with size := ns }
    else do
      let c ← Mem.lift (readLarge s.data)
      let d ← Mem.lift (forRange (copyIn E c) 0 ns s.data)
      deallocate c
      pure { data := d, size := ns } : Mem String)
  Mem.lift (set E s1 (wrap ((s1.size : Int) - 1)) (some 0))

/-- Whether a `const T*` is the null pointer. -/
def isNull (p : CPtr) : Bool := p.base.isNone && p.off == 0

/-- String.hpp:137-143 `substr(const T* begin, const T* end)`; the result is returned
in place (no move construction). -/
def substr_ptr (E : Env) (s : String) (b e : CPtr) : Mem String := do
  let e2 ← Mem.lift (if isNull e then end_ptr E s else Except.ok e)
  let res ← mk_sized E (wrap ((e2.off : Int) - b.off + 1))
  Mem.lift (forRange (copyInto E (fun i => Ptr.read b.base (b.off + i))) 0
    (wrap ((e2.off : Int) - b.off)) res)

/-- String.hpp:144-147 `substr(SizeType begin, SizeType end)`; the default argument of
`end` is `npos`. -/
def substr (E : Env) (s : String) (b e : Nat) : Mem String := do
  let e1 := if e = npos then s.size else e
  let pb ← Mem.lift (ptrAt E s b)
  let pe ← Mem.lift (ptrAt E s e1)
  substr_ptr E s pb pe

/-- String.hpp:42-44: the cursor `find` returns, the text it belongs to and a position. -/
structure StringIterator where
  str : String
  index : Nat
  deriving DecidableEq

/-- String.hpp:65 `position_of()`. -/
def StringIterator.position_of (it : StringIterator) : Nat := it.index

/-- String.hpp:151-155: the loop of `find(T c, SizeType begin)` from `i` with `n`
iterations left; comparing an indeterminate code unit is a fault. -/
def findFrom (E : Env) (s : String) (c : Nat) : Nat → Nat → Except Fault StringIterator
  | _, 0 => Except.ok { str := s, index := npos }
  | i, n + 1 =>
    match get E s i with
    | Except.error e => Except.error e
    | Except.ok none => Except.error Fault.indeterminate
    | Except.ok (some u) =>
      if u = c then Except.ok { str := s, index := i } else findFrom E s c (i + 1) n

/-- String.hpp:150-156 `find(T c, SizeType begin)`. -/
def find (E : Env) (s : String) (c : Nat) (b : Nat) : Except Fault StringIterator :=
  findFrom E s c b (s.size - b)

/-- String.hpp:162-167: the inner loop of `find(const String& str, SizeType begin)` at
the window `i`, from `j` with `n` iterations left: whether no unit differed. -/
def matchFrom (E : Env) (s str : String) (i : Nat) : Nat → Nat → Except Fault Bool
  | _, 0 => Except.ok true
  | j, n + 1 =>
    match get E s ((i + j) % sizeMod), get E str j with
    | Except.error e, _ => Except.error e
    | _, Except.error e => Except.error e
    | Except.ok (some x), Except.ok (some y) =>
      if x ≠ y then Except.ok false else matchFrom E s str i (j + 1) n
    | _, _ => Except.error Fault.indeterminate

/-- String.hpp:160-169: the outer loop of `find(const String& str, SizeType begin)` from
`i` with `n` iterations left. -/
def findStrFrom (E : Env) (s str : String) : Nat → Nat → Except Fault StringIterator
  | _, 0 => Except.ok { str := s, index := npos }
  | i, n + 1 =>
    match matchFrom E s str i 0 (wrap ((str.size : Int) - 1)) with
    | Except.error e => Except.error e
    | Except.ok true => Except.ok { str := s, index := i }
    | Except.ok false => findStrFrom E s str (i + 1) n

/-- String.hpp:157-171 `find(const String& str, SizeType begin)`. -/
def find_str (E : Env) (s str : String) (b : Nat) : Except Fault StringIterator :=
  if s.size < str.size ∨ str.size = 0 then Except.ok { str := s, index := npos }
  else findStrFrom E s str b (wrap ((s.size : Int) - str.size + 1) - b)

/-- String.hpp:197-198: the loop of `operator==` from `i` with `n` iterations left. -/
def eqFrom (E : Env) (a b : String) : Nat → Nat → Except Fault Bool
  | _, 0 => Except.ok true
  | i, n + 1 =>
    match get E a i, get E b i with
    | Except.error e, _ => Except.error e
    | _, Except.error e => Except.error e
    | Except.ok (some x), Except.ok (some y) =>
      if x ≠ y then Except.ok false else eqFrom E a b (i + 1) n
    | _, _ => Except.error Fault.indeterminate

/-- String.hpp:194-200 `operator==`. -/
def eq (E : Env) (a b : String) : Except Fault Bool :=
  if a.size ≠ b.size then Except.ok false else eqFrom E a b 0 a.size

/-- String.hpp:172-175 `begin_with(const String& str)`; the temporary `substr` builds is
destroyed after the comparison. -/
def begin_with (E : Env) (s str : String) : Mem Bool :=
  if str.size > s.size then pure false
  else do
    let t ← substr E s 0 (wrap ((str.size : Int) - 1))
    let r ← Mem.lift (eq E t str)
    destroy E t
    pure r

/-- String.hpp:176-179 `end_with(const String& str)`; the temporary `substr` builds is
destroyed after the comparison. -/
def end_with (E : Env) (s str : String) : Mem Bool :=
  if str.size > s.size then pure false
  else do
    let t ← substr E s (wrap ((s.size : Int) - str.size)) (wrap ((s.size : Int) - 1))
    let r ← Mem.lift (eq E t str)
    destroy E t
    pure r

/-- String.hpp:180-186 `operator+`; the result is returned in place. -/
def add (E : Env) (a b : String) : Mem String := do
  let res ← mk_sized E (wrap ((a.length : Int) + b.length - 1))
  let res1 ← Mem.lift (forRange (copyInto E (get E a)) 0 (wrap ((a.length : Int) - 1)) res)
  let lo := wrap ((a.length : Int) - 1)
  let hi := wrap ((a.length : Int) + b.length - 1)
  Mem.lift (forRange (copyInto E (fun i => get E b (wrap ((i : Int) - ((a.length : Int) - 1)))))
    lo (hi - lo) res1)

/-- String.hpp:187-193 `operator+=`. -/
def append (E : Env) (s o : String) : Mem String := do
  let old := wrap ((s.size : Int) - 1)
  let s1 ← resize E s (wrap ((s.size : Int) + o.size - 1))
  let s2 ← Mem.lift (forRange (copyInto E (fun i => get E o (wrap ((i : Int) - old))))
    old (s1.size - old) s1)
  Mem.lift (set E s2 (wrap ((s2.size : Int) - 1)) (some 0))

/-! ### Vocabulary of the statements -/

/-- The array the active member addresses. -/
def buf (s : String) : Buf Nat :=
  match s.data with
  | Data.small cells => cells
  | Data.large (some b) => b
  | Data.large none => []

/-- Whether the inline array is the member written last. -/
def inline (s : String) : Bool :=
  match s.data with
  | Data.small _ => true
  | Data.large _ => false

/-- Whether the text owns a heap buffer. -/
def uses_heap (s : String) : Bool :=
  match s.data with
  | Data.large (some _) => true
  | _ => false

/-- The text with the cells of its active array replaced. -/
def withBuf (s : String) (b : Buf Nat) : String :=
  match s.data with
  | Data.small _ => { s with data := Data.small b }
  | Data.large _ => { s with data := Data.large (some b) }

/-- A text in a consistent state: the size is a `SizeType` value, the member selected by
`is_small()` is the one written last, the inline array has `small_str_max_size` cells,
a heap buffer exists when selected, and the active array has room for `size` units. -/
def WF (E : Env) (s : String) : Prop :=
  s.size < 2 ^ 64 ∧ s.size ≤ s.buf.length ∧ s.inline = is_small E s
    ∧ (s.inline = true → s.buf.length = small_str_max_size E)
    ∧ (s.inline = false → s.uses_heap = true)

instance (E : Env) (s : String) : Decidable (WF E s) := by
  unfold WF; infer_instance

/-- The allocator calls of a construction with `n` units. -/
def ctorLog (E : Env) (n : Nat) : List MemEvent :=
  if small_str_max_size E < n then [MemEvent.alloc (n * E.sizeofT) true] else []

/-- The sentinel invariant: a text of length at least 1 ends with the zero code unit. -/
def Terminated (E : Env) (s : String) : Prop :=
  1 ≤ s.size → get E s (s.size - 1) = Except.ok (some 0)

instance (E : Env) (s : String) : Decidable (Terminated E s) := by
  unfold Terminated; infer_instance

end String

/-- The default instantiation `String<char>`: one-byte code units, an allocator that
satisfies every request. -/
def charEnv : Env := { sizeofT := 1, allocOk := fun _ => true }

/-- The literal "ab". -/
def lit_ab : List Nat := [97, 98, 0]

/-- The literal "abc". -/
def lit_abc : List Nat := [97, 98, 99, 0]

/-- The literal "a". -/
def lit_a : List Nat := [97, 0]

/-- The literal "x". -/
def lit_x : List Nat := [120, 0]

/-- The literal "abcdefgh", 8 content units. -/
def lit_8 : List Nat := [97, 98, 99, 100, 101, 102, 103, 104, 0]

/-- The literal "abcdefg", 7 content units. -/
def lit_7 : List Nat := [97, 98, 99, 100, 101, 102, 103, 0]

/-! ## Concrete inputs -/

instance (E : Env) (n : Nat) : Decidable (Fits E n) := by
  unfold Fits; infer_instance

/-- The inline text over the given cells. -/
def inlineText (cells : List Nat) (size : Nat) : String :=
  { data := Data.small (cells.map some), size := size }

/-- The text "ab" as `String("ab")` builds it for `charEnv`. -/
def str_ab : String := inlineText [97, 98, 0, 0, 0, 0, 0, 0] 3

/-- The text "abc" as `String("abc")` builds it for `charEnv`. -/
def str_abc : String := inlineText [97, 98, 99, 0, 0, 0, 0, 0] 4

/-- The text "a" as `String("a")` builds it for `charEnv`. -/
def str_a : String := inlineText [97, 0, 0, 0, 0, 0, 0, 0] 2

/-- The text "x" as `String("x")` builds it for `charEnv`. -/
def str_x : String := inlineText [120, 0, 0, 0, 0, 0, 0, 0] 2

/-- The text "abcdefgh" as `String("abcdefgh")` builds it for `charEnv`: 9 units on the heap. -/
def str_8 : String := { data := Data.large (some (lit_8.map some)), size := 9 }

/-- The text "" as `String("")` builds it for `charEnv`: stored length 1. -/
def str_empty : String := inlineText [0, 0, 0, 0, 0, 0, 0, 0] 1

/-- The text "bc" as `String("bc")` builds it for `charEnv`. -/
def str_bc : String := inlineText [98, 99, 0, 0, 0, 0, 0, 0] 3

/-- The literal "". -/
def lit_empty : List Nat := [0]

/-- The literal "bc". -/
def lit_bc : List Nat := [98, 99, 0]

/-- An instantiation with one-byte elements whose allocator satisfies requests of at most
16 bytes and returns the null handle for larger ones. -/
def tightEnv : Env := { sizeofT := 1, allocOk := fun bytes => decide (bytes ≤ 16) }

/-- An instantiation with 4-byte elements whose allocator satisfies requests of at most
8 bytes and returns the null handle for larger ones. -/
def smallHeapEnv : Env := { sizeofT := 4, allocOk := fun bytes => decide (bytes ≤ 8) }

/-- Calls `resize(capacity())` and then `resize(0)`, `n` times. -/
def Vector.growRounds {α : Type} (E : Env) : Nat → Vector α → Mem (Vector α)
  | 0, v => pure v
  | n + 1, v => do
    let v1 ← Vector.resize E v v.capacity_
    let v2 ← Vector.resize E v1 0
    Vector.growRounds E n v2

/-! ## Basic facts about the memory model -/

theorem wrap_natCast (n : Nat) (h : n < 2 ^ 64) : wrap (n : Int) = n := by
  unfold wrap; omega

theorem wrap_sub_one (n : Nat) (h0 : 0 < n) (h : n < 2 ^ 64) : wrap ((n : Int) - 1) = n - 1 := by
  unfold wrap; omega

theorem Buf.read_of_lt {α : Type} (b : Buf α) (i : Nat) (h : i < b.length) :
    b.read i = Except.ok b[i] := by
  simp [Buf.read, List.getElem?_eq_getElem h]

theorem Buf.read_eq_ok_iff {α : Type} (b : Buf α) (i : Nat) (c : Option α) :
    b.read i = Except.ok c ↔ b[i]? = some c := by
  unfold Buf.read
  rw [List.get?_eq_getElem?]
  cases b[i]? <;> simp

theorem Buf.write_ok_iff {α : Type} (b : Buf α) (i : Nat) (c : Option α) :
    (∃ b2, b.write i c = Except.ok b2) ↔ i < b.length := by
  unfold Buf.write
  split <;> simp_all

theorem Buf.write_of_lt {α : Type} (b : Buf α) (i : Nat) (c : Option α) (h : i < b.length) :
    b.write i c = Except.ok (b.set i c) := by
  simp [Buf.write, h]

theorem allocate_of_fits {α : Type} (E : Env) (n : Nat) (h : Fits E n) :
    (allocate E n : Mem (Ptr α))
      = Except.ok (some (List.replicate n none), [MemEvent.alloc (n * E.sizeofT) true]) := by
  obtain ⟨h0, h1, h2⟩ := h
  have hm : n * E.sizeofT % sizeMod = n * E.sizeofT := Nat.mod_eq_of_lt (by simpa [sizeMod] using h1)
  simp [allocate, hm, h2, Nat.mul_div_cancel _ h0]

theorem Fits.lt {E : Env} {n : Nat} (h : Fits E n) : n < 2 ^ 64 := by
  obtain ⟨h0, h1, _⟩ := h
  calc n = n * 1 := (Nat.mul_one n).symm
    _ ≤ n * E.sizeofT := Nat.mul_le_mul_left n h0
    _ < 2 ^ 64 := h1

namespace Vector

variable {α : Type}

theorem forRange_moveCell (sb : Buf α) : ∀ (n lo : Nat) (v : Vector α) (db : Buf α),
    v.data_ = some db → lo + n ≤ sb.length → lo + n ≤ db.length →
    ∃ db2, forRange (moveCell (some sb)) lo n v = Except.ok { v with data_ := some db2 }
      ∧ db2.length = db.length
      ∧ ∀ i, db2[i]? = if lo ≤ i ∧ i < lo + n then sb[i]? else db[i]? := by
  intro n
  induction n with
  | zero =>
    intro lo v db hv _ _
    refine ⟨db, ?_, rfl, ?_⟩
    · cases v; simp_all [forRange]
    · intro i
      have : ¬ (lo ≤ i ∧ i < lo) := by omega
      simp [this]
  | succ n ih =>
    intro lo v db hv hs hd
    have hstep : moveCell (some sb) lo v = Except.ok { v with data_ := some (db.set lo sb[lo]) } := by
      simp [moveCell, Ptr.read, Buf.read_of_lt sb lo (by omega), store, hv, Ptr.write,
        Buf.write_of_lt db lo _ (by omega), bind, Except.bind, pure, Except.pure]
    obtain ⟨db2, h1, h2, h3⟩ := ih (lo + 1) { v with data_ := some (db.set lo sb[lo]) }
      (db.set lo sb[lo]) rfl (by omega) (by simp; omega)
    refine ⟨db2, ?_, ?_, ?_⟩
    · simp only [forRange, hstep]
      simpa using h1
    · simpa using h2
    · intro i
      rw [h3 i]
      by_cases hi : i = lo
      · subst hi
        have : ¬ (i + 1 ≤ i ∧ i < i + 1 + n) := by omega
        have h4 : (i ≤ i ∧ i < i + (n + 1)) := by omega
        simp [this, h4, List.getElem?_set, List.getElem?_eq_getElem (show i < sb.length by omega)]
        omega
      · by_cases hc : lo + 1 ≤ i ∧ i < lo + 1 + n
        · have h4 : (lo ≤ i ∧ i < lo + (n + 1)) := by omega
          simp [hc, h4]
        · have h4 : ¬ (lo ≤ i ∧ i < lo + (n + 1)) := by omega
          simp [hc, h4, List.getElem?_set]
          intro h; exact absurd h.symm hi


theorem new_length_keep (E : Env) (c : Bool) (v : Vector α) (l : Nat)
    (h0 : v.capacity_ ≠ 0) (hl : l < v.capacity_) :
    new_length E c v l = Except.ok ({ v with size_ := l }, []) := by
  simp [new_length, h0, hl, bind, Mem.bind, pure, Mem.pure]

theorem new_length_first (E : Env) (c : Bool) (v : Vector α) (l : Nat)
    (h0 : v.capacity_ = 0) (hf : Fits E 2) (hl : l < 2) :
    new_length E c v l = Except.ok ({ data_ := some [none, none], size_ := l, capacity_ := 2 },
      [MemEvent.alloc (2 * E.sizeofT) true]) := by
  simp [new_length, h0, hl, bind, Mem.bind, pure, Mem.pure, allocate_of_fits E 2 hf,
    List.replicate]

theorem new_length_grow (E : Env) (v : Vector α) (l : Nat) (b : Buf α)
    (h0 : v.capacity_ ≠ 0) (hl : v.capacity_ ≤ l)
    (hf : Fits E (v.capacity_ + v.capacity_ / 2)) (hb : v.data_ = some b)
    (hm1 : min v.size_ l ≤ b.length) (hm2 : min v.size_ l ≤ v.capacity_ + v.capacity_ / 2) :
    ∃ b2, new_length E true v l
        = Except.ok ({ data_ := some b2, size_ := l, capacity_ := v.capacity_ + v.capacity_ / 2 },
            [MemEvent.alloc ((v.capacity_ + v.capacity_ / 2) * E.sizeofT) true, MemEvent.free])
      ∧ b2.length = v.capacity_ + v.capacity_ / 2
      ∧ ∀ i, b2[i]? = if i < min v.size_ l then b[i]?
          else if i < v.capacity_ + v.capacity_ / 2 then some none else none := by
  have hlt := hf.lt
  have hmod : (v.capacity_ + v.capacity_ / 2) % sizeMod = v.capacity_ + v.capacity_ / 2 :=
    Nat.mod_eq_of_lt (by simpa [sizeMod] using hlt)
  have hng : ¬ (v.capacity_ + v.capacity_ / 2 > max_size) := by
    simp only [max_size, sizeMod]; omega
  obtain ⟨b2, h1, h2, h3⟩ := forRange_moveCell b (min v.size_ l) 0
    { v with data_ := some (List.replicate (v.capacity_ + v.capacity_ / 2) none),
             capacity_ := v.capacity_ + v.capacity_ / 2 }
    (List.replicate (v.capacity_ + v.capacity_ / 2) none) rfl (by omega) (by simp; omega)
  refine ⟨b2, ?_, by simpa using h2, ?_⟩
  · have hl2 : ¬ (l < v.capacity_) := by omega
    simp only [Nat.zero_add] at h1
    simp [new_length, h0, hl2, hmod, hng, bind, Mem.bind, pure, Mem.pure,
      allocate_of_fits E _ hf, hb, Mem.lift, h1, deallocate]
  · intro i
    rw [h3 i]
    by_cases hi : i < min v.size_ l
    · simp [hi]
    · simp only [Nat.zero_le, true_and, Nat.zero_add, hi, if_false]
      by_cases hc : i < v.capacity_ + v.capacity_ / 2
      · simp [hc, List.getElem?_replicate]
      · simp [hc, List.getElem?_replicate]


theorem sound_init : Sound (init : Vector α) := Or.inl ⟨rfl, rfl⟩

theorem push_back_spec (E : Env) (v : Vector α) (x : α) (hs : Sound v)
    (hf0 : v.capacity_ = 0 → Fits E 2)
    (hfg : v.capacity_ ≠ 0 → v.capacity_ ≤ v.size_ + 1 → Fits E (v.capacity_ + v.capacity_ / 2)) :
    ∃ v2 log b2, push_back E v x = Except.ok (v2, log)
      ∧ v2.data_ = some b2 ∧ b2.length = v2.capacity_
      ∧ 2 ≤ v2.capacity_ ∧ v2.capacity_ < 2 ^ 64
      ∧ v2.size_ = v.size_ + 1 ∧ v2.size_ ≤ v2.capacity_
      ∧ v2.capacity_ = (if v.capacity_ = 0 then 2
          else if v.capacity_ ≤ v.size_ + 1 then v.capacity_ + v.capacity_ / 2 else v.capacity_)
      ∧ b2[v.size_]? = some (some x)
      ∧ ∀ i, i < v.size_ → v2.index i = v.index i := by
  rcases hs with ⟨hc, hz⟩ | ⟨hc2, hclt, hle, b, hb, hbl⟩
  · -- first allocation
    have h1 : (v.size_ + 1) % sizeMod = 1 := by simp [hz, sizeMod]
    refine ⟨{ data_ := some [some x, none], size_ := 1, capacity_ := 2 },
      [MemEvent.alloc (2 * E.sizeofT) true], [some x, none], ?_⟩
    refine ⟨?_, rfl, rfl, by simp, by simp, by simp [hz], by simp, by simp [hc], by simp [hz], ?_⟩
    · simp only [push_back, h1, new_length_first E true v 1 hc (hf0 hc) (by omega)]
      simp [bind, Mem.bind, Mem.lift, store, Ptr.write, Buf.write, wrap, pure, Except.pure,
        Except.bind]
    · intro i hi; omega
  · have hc0 : v.capacity_ ≠ 0 := by omega
    by_cases hg : v.capacity_ ≤ v.size_ + 1
    · -- growth by one half
      have hf := hfg hc0 hg
      have hlt := hf.lt
      have h1 : (v.size_ + 1) % sizeMod = v.size_ + 1 :=
        Nat.mod_eq_of_lt (by simp only [sizeMod]; omega)
      obtain ⟨b1, e1, l1, c1⟩ := new_length_grow E v (v.size_ + 1) b hc0 hg hf hb
        (by omega) (by omega)
      have hw : wrap (v.size_ : Int) = v.size_ := wrap_natCast v.size_ (by omega)
      refine ⟨{ data_ := some (b1.set v.size_ (some x)), size_ := v.size_ + 1,
                capacity_ := v.capacity_ + v.capacity_ / 2 },
        [MemEvent.alloc ((v.capacity_ + v.capacity_ / 2) * E.sizeofT) true, MemEvent.free],
        b1.set v.size_ (some x), ?_⟩
      refine ⟨?_, rfl, by simpa using l1, by simp; omega, by simpa using hlt, rfl,
        by simp; omega, by simp [hc0, hg], ?_, ?_⟩
      · simp only [push_back, h1, e1]
        simp [bind, Mem.bind, Mem.lift, store, Ptr.write, hw,
          Buf.write_of_lt b1 v.size_ (some x) (by omega), pure, Except.pure, Except.bind]
      · simp [List.getElem?_set]; omega
      · intro i hi
        have := c1 i
        simp only [index, Ptr.read, hb, Buf.read, List.get?_eq_getElem?]
        rw [List.getElem?_set]
        have hne : ¬ (v.size_ = i) := by omega
        have hmin : i < min v.size_ (v.size_ + 1) := by omega
        rw [if_neg hne, this, if_pos hmin]
    · -- room left
      have h1 : (v.size_ + 1) % sizeMod = v.size_ + 1 :=
        Nat.mod_eq_of_lt (by simp only [sizeMod]; omega)
      have hw : wrap (v.size_ : Int) = v.size_ := wrap_natCast v.size_ (by omega)
      refine ⟨{ data_ := some (b.set v.size_ (some x)), size_ := v.size_ + 1,
                capacity_ := v.capacity_ }, [], b.set v.size_ (some x), ?_⟩
      refine ⟨?_, rfl, by simpa using hbl, by simpa using hc2, by simpa using hclt, rfl,
        by simp; omega, by simp [hc0, hg], ?_, ?_⟩
      · simp only [push_back, h1, new_length_keep E true v (v.size_ + 1) hc0 (by omega)]
        simp [bind, Mem.bind, Mem.lift, store, Ptr.write, hw, hb,
          Buf.write_of_lt b v.size_ (some x) (by omega), pure, Except.pure, Except.bind]
      · simp [List.getElem?_set]; omega
      · intro i hi
        simp only [index, Ptr.read, hb, Buf.read, List.get?_eq_getElem?]
        rw [List.getElem?_set]
        have hne : ¬ (v.size_ = i) := by omega
        simp [hne]


theorem pushAll_spec (E : Env) (B : Nat) (hF : ∀ n, 2 ≤ n → n ≤ B → Fits E n) :
    ∀ (xs : List α) (v : Vector α) (ys : List α), Sound v → v.size_ = ys.length →
      v.capacity_ ≤ max 2 (v.size_ + v.size_ / 2) →
      (∀ i, i < ys.length → v.index i = Except.ok (ys[i]?)) →
      max 2 ((ys.length + xs.length) + (ys.length + xs.length) / 2) ≤ B →
      ∃ v2 log, pushAll E v xs = Except.ok (v2, log) ∧ Sound v2
        ∧ v2.size_ = ys.length + xs.length
        ∧ (∀ i, i < ys.length + xs.length → v2.index i = Except.ok ((ys ++ xs)[i]?))
        ∧ (xs ≠ [] → ∃ b, v2.data_ = some b ∧ b.length = v2.capacity_) := by
  intro xs
  induction xs with
  | nil =>
    intro v ys hs hz _ hc _
    exact ⟨v, [], rfl, hs, by simpa using hz, by simpa using hc, by simp⟩
  | cons x xs ih =>
    intro v ys hs hz hcap hc hB
    simp only [List.length_cons] at hB
    have hcz : v.capacity_ = 0 ∨ 2 ≤ v.capacity_ := by
      rcases hs with h | h
      · exact Or.inl h.1
      · exact Or.inr h.1
    obtain ⟨v1, l1, b1, e1, d1, bl1, c2, clt, z1, zc, ceq, bx, keep⟩ :=
      push_back_spec E v x hs (fun _ => hF 2 (by omega) (by omega))
        (fun h0 hg => hF _ (by omega) (by omega))
    have hs1 : Sound v1 := Or.inr ⟨c2, clt, zc, b1, d1, bl1⟩
    have hcap1 : v1.capacity_ ≤ max 2 (v1.size_ + v1.size_ / 2) := by
      rw [ceq, z1]
      split
      · omega
      · split <;> omega
    have hc1 : ∀ i, i < (ys ++ [x]).length → v1.index i = Except.ok ((ys ++ [x])[i]?) := by
      intro i hi
      simp only [List.length_append, List.length_singleton] at hi
      by_cases hlt : i < ys.length
      · rw [keep i (by omega), hc i hlt, List.getElem?_append_left hlt]
      · have hie : i = v.size_ := by omega
        subst hie
        simp only [index, Ptr.read, d1, Buf.read, List.get?_eq_getElem?, bx]
        rw [List.getElem?_append_right (by omega)]
        simp [hz]
    obtain ⟨v2, l2, e2, hs2, z2, c2x, hb2⟩ := ih v1 (ys ++ [x]) hs1 (by simp [z1, hz]) hcap1 hc1
      (by simp only [List.length_append, List.length_singleton]; omega)
    refine ⟨v2, l1 ++ l2, ?_, hs2, ?_, ?_, ?_⟩
    · simp only [pushAll, e1, bind, Mem.bind, e2]
    · simp only [List.length_append, List.length_singleton] at z2
      simp only [List.length_cons]; omega
    · intro i hi
      have := c2x i (by simp only [List.length_append, List.length_singleton]; simp only [List.length_cons] at hi; omega)
      simpa using this
    · intro _
      by_cases hx : xs = []
      · subst hx
        simp only [pushAll, pure, Mem.pure] at e2
        injection e2 with e2
        injection e2 with e2 _
        subst e2
        exact ⟨b1, d1, bl1⟩
      · exact hb2 hx


theorem pop_after_push (E : Env) (v : Vector α) (x : α) (hs : Sound v)
    (hf0 : v.capacity_ = 0 → Fits E 2)
    (hfg : v.capacity_ ≠ 0 → v.capacity_ ≤ v.size_ + 1 → Fits E (v.capacity_ + v.capacity_ / 2)) :
    ∃ v1 l1 v2, push_back E v x = Except.ok (v1, l1)
      ∧ pop_back E v1 = Except.ok ((some x, v2), [])
      ∧ v2.size_ = v.size_ ∧ v1.size_ = v.size_ + 1
      ∧ ∀ i, i < v.size_ → v2.index i = v.index i := by
  have hcz : v.capacity_ = 0 ∨ 2 ≤ v.capacity_ := by
    rcases hs with h | h
    · exact Or.inl h.1
    · exact Or.inr h.1
  have hzc : v.capacity_ = 0 → v.size_ = 0 := by
    intro h0
    rcases hs with h | h
    · exact h.2
    · omega
  have hle : v.capacity_ ≠ 0 → v.size_ ≤ v.capacity_ := by
    intro h0
    rcases hs with h | h
    · exact absurd h.1 h0
    · exact h.2.2.1
  obtain ⟨v1, l1, b1, e1, d1, bl1, c2, clt, z1, zc, ceq, bx, keep⟩ :=
    push_back_spec E v x hs hf0 hfg
  have hlt : v.size_ < v1.capacity_ := by
    rw [ceq]
    split
    · have := hzc (by assumption); omega
    · have := hle (by assumption)
      split <;> omega
  have hw : wrap ((v1.size_ : Int) - 1) = v.size_ := by
    rw [z1]
    have := wrap_sub_one (v.size_ + 1) (by omega) (by omega)
    simpa using this
  refine ⟨v1, l1, { v1 with size_ := v.size_ }, e1, ?_, rfl, z1, ?_⟩
  · have hr : v1.index v.size_ = Except.ok (some x) := by
      simp [index, Ptr.read, d1, Buf.read, List.get?_eq_getElem?, bx]
    simp only [pop_back, hw, hr, new_length_keep E true v1 v.size_ (by omega) hlt]
    rfl
  · intro i hi
    rw [← keep i hi]
    rfl

end Vector

/-- C1: from the default-constructed vector, `push_back(x_0), ..., push_back(x_{N-1})`
runs without any access outside the buffer and, after each of the first `k` calls
(`k ≤ N`), `size() == k`, element `[i]` is `x_i` for every `i < k`, and the buffer has
exactly `capacity()` cells with `k ≤ capacity()`; `N` is small enough that the largest
capacity reached, in bytes, is representable in `SizeType`, and the allocator satisfies
every request. -/
theorem C1_push_back_sequence {α : Type} (E : Env) (xs : List α)
    (hsz : 0 < E.sizeofT) (hok : ∀ bytes, E.allocOk bytes = true)
    (hN : max 2 (xs.length + xs.length / 2) * E.sizeofT < 2 ^ 64) :
    ∀ k, k ≤ xs.length →
      ∃ v log, Vector.pushAll E Vector.init (xs.take k) = Except.ok (v, log)
        ∧ v.size = k
        ∧ (∀ i (h : i < xs.length), i < k → v.index i = Except.ok (some xs[i]))
        ∧ k ≤ v.capacity
        ∧ (0 < k → ∃ b, v.data_ = some b ∧ b.length = v.capacity) := by
  intro k hk
  have hF : ∀ n, 2 ≤ n → n ≤ max 2 (xs.length + xs.length / 2) → Fits E n := by
    intro n _ hn
    refine ⟨hsz, ?_, hok _⟩
    calc n * E.sizeofT ≤ max 2 (xs.length + xs.length / 2) * E.sizeofT :=
          Nat.mul_le_mul_right _ hn
      _ < 2 ^ 64 := hN
  have hlen : (xs.take k).length = k := by simp [hk]
  obtain ⟨v, log, e, hs, hz, hc, hb⟩ := Vector.pushAll_spec E _ hF (xs.take k) Vector.init []
    Vector.sound_init rfl (by simp [Vector.init]) (by simp)
    (by simp only [List.length_nil, Nat.zero_add, hlen]; omega)
  simp only [List.length_nil, Nat.zero_add, hlen, List.nil_append] at hz hc
  refine ⟨v, log, e, hz, ?_, ?_, ?_⟩
  · intro i h hik
    rw [hc i hik, List.getElem?_take_of_lt hik, List.getElem?_eq_getElem h]
  · rcases hs with ⟨_, h0⟩ | ⟨_, _, h1, _⟩
    · simp only [Vector.capacity]; omega
    · simp only [Vector.capacity]; omega
  · intro hk0
    apply hb
    intro hnil
    rw [hnil] at hlen
    simp at hlen
    omega

/-- C1 at `push_back` of 0, 1, 2 with 4-byte elements. -/
theorem C1_push_back_sequence_witness :
    (0 < intEnv.sizeofT ∧ (∀ bytes, intEnv.allocOk bytes = true)
      ∧ max 2 ([0, 1, 2].length + [0, 1, 2].length / 2) * intEnv.sizeofT < 2 ^ 64 ∧ 3 ≤ [0, 1, 2].length)
    ∧ ∃ v log, Vector.pushAll intEnv Vector.init ([0, 1, 2].take 3) = Except.ok (v, log)
        ∧ v.size = 3
        ∧ (∀ i (h : i < [0, 1, 2].length), i < 3 → v.index i = Except.ok (some [0, 1, 2][i]))
        ∧ 3 ≤ v.capacity
        ∧ (0 < 3 → ∃ b, v.data_ = some b ∧ b.length = v.capacity) :=
  ⟨⟨by decide, fun _ => rfl, by decide, by decide⟩,
    C1_push_back_sequence intEnv [0, 1, 2] (by decide) (fun _ => rfl) (by decide) 3 (by decide)⟩

/-- C2 at its failing input: `resize(4)` on the default-constructed vector leaves
`size() == 4` over a buffer of `capacity() == 3` cells, and the `push_back(7)` that
follows copies `min(4, 5)` elements out of that 3-cell buffer, an access outside it,
so the round trip with `pop_back()` is never completed. -/
theorem C2_push_pop_after_resize :
    (Vector.resize intEnv (Vector.init : Vector Nat) 4).value
        = Except.ok { data_ := some [none, none, none], size_ := 4, capacity_ := 3 }
    ∧ Vector.push_back intEnv
        ({ data_ := some [none, none, none], size_ := 4, capacity_ := 3 } : Vector Nat) 7
        = Except.error Fault.outOfBounds
    ∧ (do let v ← Vector.resize intEnv (Vector.init : Vector Nat) 4
          let v1 ← Vector.push_back intEnv v 7
          Vector.pop_back intEnv v1 : Mem (Option Nat × Vector Nat))
        = Except.error Fault.outOfBounds := by
  decide


/-! ## Facts about `String` -/

namespace String

theorem npos_eq : npos = 2 ^ 64 - 1 := by decide

theorem readArr_eq (str : List Nat) (i : Nat) (h : i < str.length) :
    readArr str i = Except.ok (some str[i]) := by
  simp [readArr, List.get?_eq_getElem?, List.getElem?_eq_getElem h]

theorem get_eq_read (E : Env) (s : String) (hw : WF E s) (i : Nat) :
    get E s i = Buf.read s.buf i := by
  obtain ⟨_, _, hin, _, hh⟩ := hw
  unfold get
  rcases s with ⟨d, n⟩
  cases d with
  | small cells =>
    simp only [inline] at hin
    simp [← hin, readSmall, buf]
  | large p =>
    simp only [inline] at hin hh
    cases p with
    | none => simp [uses_heap] at hh
    | some b =>
      simp [← hin, readLarge, buf, Ptr.read, bind, Except.bind]

theorem get_ok_iff (E : Env) (s : String) (hw : WF E s) (i : Nat) (c : Option Nat) :
    get E s i = Except.ok c ↔ s.buf[i]? = some c := by
  rw [get_eq_read E s hw, Buf.read_eq_ok_iff]

theorem buf_withBuf (s : String) (b : Buf Nat) : (s.withBuf b).buf = b := by
  rcases s with ⟨d, n⟩
  cases d <;> simp [withBuf, buf]

theorem size_withBuf (s : String) (b : Buf Nat) : (s.withBuf b).size = s.size := by
  rcases s with ⟨d, n⟩
  cases d <;> simp [withBuf]

theorem inline_withBuf (s : String) (b : Buf Nat) : (s.withBuf b).inline = s.inline := by
  rcases s with ⟨d, n⟩
  cases d <;> simp [withBuf, inline]

theorem uses_heap_withBuf (s : String) (b : Buf Nat) (h : s.inline = false) :
    (s.withBuf b).uses_heap = true := by
  rcases s with ⟨d, n⟩
  cases d <;> simp_all [withBuf, inline, uses_heap]

theorem withBuf_withBuf (s : String) (b c : Buf Nat) : (s.withBuf b).withBuf c = s.withBuf c := by
  rcases s with ⟨d, n⟩
  cases d <;> simp [withBuf]

theorem withBuf_buf (E : Env) (s : String) (hw : WF E s) : s.withBuf s.buf = s := by
  obtain ⟨_, _, _, _, hh⟩ := hw
  rcases s with ⟨d, n⟩
  cases d with
  | small cells => simp [withBuf, buf]
  | large p =>
    cases p with
    | none => simp [inline, uses_heap] at hh
    | some b => simp [withBuf, buf]

theorem wf_withBuf (E : Env) (s : String) (hw : WF E s) (b : Buf Nat)
    (hl : b.length = s.buf.length) : WF E (s.withBuf b) := by
  obtain ⟨h1, h2, h3, h4, h5⟩ := hw
  refine ⟨by rw [size_withBuf]; exact h1, by rw [size_withBuf, buf_withBuf, hl]; exact h2, ?_, ?_, ?_⟩
  · rw [inline_withBuf, h3]; simp [is_small, size_withBuf]
  · rw [inline_withBuf, buf_withBuf, hl]; exact h4
  · rw [inline_withBuf]; intro h; exact uses_heap_withBuf s b h

theorem set_eq (E : Env) (s : String) (hw : WF E s) (i : Nat) (c : Option Nat)
    (hi : i < s.buf.length) : set E s i c = Except.ok (s.withBuf (s.buf.set i c)) := by
  obtain ⟨_, _, hin, _, hh⟩ := hw
  unfold set
  rcases s with ⟨d, n⟩
  cases d with
  | small cells =>
    simp only [inline] at hin
    simp only [buf] at hi
    simp [← hin, writeSmall, buf, withBuf, Buf.write_of_lt cells i c hi, bind, Except.bind,
      pure, Except.pure]
  | large p =>
    simp only [inline] at hin hh
    cases p with
    | none => simp [uses_heap] at hh
    | some b =>
      simp only [buf] at hi
      simp [← hin, readLarge, buf, withBuf, Ptr.write, Buf.write_of_lt b i c hi, bind,
        Except.bind, pure, Except.pure]

theorem forRange_copyInto (E : Env) (src : Nat → Except Fault (Option Nat))
    (f : Nat → Option Nat) : ∀ (n lo : Nat) (s : String), WF E s → lo + n ≤ s.buf.length →
    (∀ i, lo ≤ i → i < lo + n → src i = Except.ok (f i)) →
    ∃ b2, forRange (copyInto E src) lo n s = Except.ok (s.withBuf b2)
      ∧ b2.length = s.buf.length
      ∧ ∀ i, b2[i]? = if lo ≤ i ∧ i < lo + n then some (f i) else s.buf[i]? := by
  intro n
  induction n with
  | zero =>
    intro lo s hw _ _
    refine ⟨s.buf, ?_, rfl, ?_⟩
    · simp [forRange, withBuf_buf E s hw]
    · intro i
      have : ¬ (lo ≤ i ∧ i < lo) := by omega
      simp [this]
  | succ n ih =>
    intro lo s hw hl hsrc
    have hstep : copyInto E src lo s = Except.ok (s.withBuf (s.buf.set lo (f lo))) := by
      simp only [copyInto, hsrc lo (le_refl _) (by omega), bind, Except.bind]
      exact set_eq E s hw lo (f lo) (by omega)
    have hw2 := wf_withBuf E s hw (s.buf.set lo (f lo)) (by simp)
    obtain ⟨b2, h1, h2, h3⟩ := ih (lo + 1) (s.withBuf (s.buf.set lo (f lo))) hw2
      (by rw [buf_withBuf]; simp; omega) (fun i h1 h2 => hsrc i (by omega) (by omega))
    refine ⟨b2, ?_, ?_, ?_⟩
    · simp only [forRange, hstep]
      rw [h1, withBuf_withBuf]
    · rw [h2, buf_withBuf]; simp
    · intro i
      rw [h3 i, buf_withBuf]
      by_cases hi : i = lo
      · subst hi
        have h4 : ¬ (i + 1 ≤ i ∧ i < i + 1 + n) := by omega
        have h5 : (i ≤ i ∧ i < i + (n + 1)) := by omega
        rw [if_neg h4, if_pos h5, List.getElem?_set]
        simp; omega
      · by_cases hc : lo + 1 ≤ i ∧ i < lo + 1 + n
        · have h4 : (lo ≤ i ∧ i < lo + (n + 1)) := by omega
          rw [if_pos hc, if_pos h4]
        · have h4 : ¬ (lo ≤ i ∧ i < lo + (n + 1)) := by omega
          rw [if_neg hc, if_neg h4, List.getElem?_set]
          have : ¬ (lo = i) := fun h => hi h.symm
          simp [this]

end String

namespace String

theorem small_str_max_size_le (E : Env) : small_str_max_size E ≤ 8 := by
  unfold small_str_max_size sizeofPtr
  exact Nat.div_le_self 8 E.sizeofT

theorem uses_heap_eq (E : Env) (s : String) (hw : WF E s) :
    s.uses_heap = decide (small_str_max_size E < s.size) := by
  obtain ⟨_, _, hin, _, hh⟩ := hw
  rcases s with ⟨d, n⟩
  cases d with
  | small cells =>
    simp only [inline, is_small] at hin
    have h : n ≤ small_str_max_size E := of_decide_eq_true hin.symm
    simp only [uses_heap]
    symm
    apply decide_eq_false
    show ¬ (small_str_max_size E < n)
    omega
  | large p =>
    simp only [inline, is_small] at hin
    have h : ¬ (n ≤ small_str_max_size E) := of_decide_eq_false hin.symm
    rw [hh rfl]
    symm
    apply decide_eq_true
    show small_str_max_size E < n
    omega

theorem read_getD (b : Buf Nat) (i : Nat) (h : i < b.length) :
    Buf.read b i = Except.ok (b[i]?.getD none) := by
  rw [Buf.read_of_lt b i h, List.getElem?_eq_getElem h]
  rfl

theorem get_getD (E : Env) (s : String) (hw : WF E s) (i : Nat) (h : i < s.buf.length) :
    get E s i = Except.ok (s.buf[i]?.getD none) := by
  rw [get_eq_read E s hw, read_getD s.buf i h]

theorem wf_zeroed (E : Env) (n : Nat) (h : n ≤ small_str_max_size E) :
    WF E { data := zeroed E, size := n } := by
  have := small_str_max_size_le E
  refine ⟨by simp only; omega, by simpa [buf, zeroed] using h, ?_, ?_, ?_⟩
  · simp [inline, zeroed, is_small, h]
  · simp [buf, zeroed]
  · simp [inline, zeroed]

theorem wf_large (E : Env) (n : Nat) (b : Buf Nat) (h : small_str_max_size E < n)
    (hn : n < 2 ^ 64) (hb : n ≤ b.length) :
    WF E { data := Data.large (some b), size := n } := by
  refine ⟨hn, by simpa [buf] using hb, ?_, ?_, ?_⟩
  · simp only [inline, is_small]
    symm
    apply decide_eq_false
    omega
  · simp [inline]
  · simp [uses_heap]

theorem allocIfLarge_zeroed (E : Env) (n : Nat) (hf : small_str_max_size E < n → Fits E n) :
    ∃ r, allocIfLarge E { data := zeroed E, size := n } = Except.ok (r, ctorLog E n)
      ∧ WF E r ∧ r.size = n := by
  by_cases h : n ≤ small_str_max_size E
  · refine ⟨{ data := zeroed E, size := n }, ?_, wf_zeroed E n h, rfl⟩
    have : ¬ (small_str_max_size E < n) := by omega
    simp [allocIfLarge, is_small, h, ctorLog, this, pure, Mem.pure]
  · have hlt : small_str_max_size E < n := by omega
    have hF := hf hlt
    refine ⟨{ data := Data.large (some (List.replicate n none)), size := n }, ?_,
      wf_large E n _ hlt hF.lt (by simp), rfl⟩
    simp [allocIfLarge, is_small, h, ctorLog, hlt, bind, Mem.bind, pure, Mem.pure,
      allocate_of_fits E n hF]

theorem of_array_spec (E : Env) (str : List Nat)
    (hf : small_str_max_size E < str.length → Fits E str.length) :
    ∃ r, of_array E str = Except.ok (r, ctorLog E str.length)
      ∧ WF E r ∧ r.size = str.length
      ∧ ∀ i, i < str.length → get E r i = Except.ok (str[i]?) := by
  obtain ⟨r, e, hw, hz⟩ := allocIfLarge_zeroed E str.length hf
  obtain ⟨b2, h1, h2, h3⟩ := forRange_copyInto E (readArr str) (fun i => str[i]?) r.size 0 r hw
    (by have := hw.2.1; omega)
    (by
      intro i _ hi
      beta_reduce
      rw [readArr_eq str i (by omega), List.getElem?_eq_getElem (by omega)])
  refine ⟨r.withBuf b2, ?_, wf_withBuf E r hw b2 h2, by rw [size_withBuf, hz], ?_⟩
  · simp [of_array, e, bind, Mem.bind, h1, Mem.lift]
  · intro i hi
    rw [get_ok_iff E _ (wf_withBuf E r hw b2 h2), buf_withBuf, h3 i]
    have : (0 ≤ i ∧ i < 0 + r.size) := by omega
    rw [if_pos this]

theorem scanSize_spec (content rest : List Nat) (hnz : ∀ c, c ∈ content → c ≠ 0)
    (hlen : content.length + 1 < 2 ^ 64) :
    ∀ (k size fuel : Nat), 1 ≤ size → size + k = content.length + 1 → k < fuel →
      scanSize (content ++ 0 :: rest) fuel size = Except.ok (content.length + 1) := by
  intro k
  induction k with
  | zero =>
    intro size fuel h1 hk hfuel
    obtain ⟨f, rfl⟩ : ∃ f, fuel = f + 1 := ⟨fuel - 1, by omega⟩
    have hw : wrap ((size : Int) - 1) = content.length := by
      rw [wrap_sub_one size (by omega) (by omega)]; omega
    simp only [scanSize, hw, List.get?_eq_getElem?]
    rw [List.getElem?_append_right (le_refl _)]
    simp
    omega
  | succ k ih =>
    intro size fuel h1 hk hfuel
    obtain ⟨f, rfl⟩ : ∃ f, fuel = f + 1 := ⟨fuel - 1, by omega⟩
    have hw : wrap ((size : Int) - 1) = size - 1 := wrap_sub_one size (by omega) (by omega)
    have hlt : size - 1 < content.length := by omega
    have hc : content[size - 1] ≠ 0 := hnz _ (List.getElem_mem _)
    have hm : (size + 1) % sizeMod = size + 1 := Nat.mod_eq_of_lt (by simp only [sizeMod]; omega)
    simp only [scanSize, hw, List.get?_eq_getElem?]
    rw [List.getElem?_append_left hlt, List.getElem?_eq_getElem hlt]
    simp only [ne_eq, hc, not_false_eq_true, if_true, hm]
    exact ih (size + 1) f (by omega) (by omega) (by omega)

theorem of_ptr_spec (E : Env) (content rest : List Nat) (hnz : ∀ c, c ∈ content → c ≠ 0)
    (hlen : content.length + 1 < 2 ^ 64)
    (hf : small_str_max_size E < content.length + 1 → Fits E (content.length + 1)) :
    ∃ r, of_ptr E (content ++ 0 :: rest) = Except.ok (r, ctorLog E (content.length + 1))
      ∧ WF E r ∧ r.size = content.length + 1
      ∧ ∀ i, i < content.length + 1 → get E r i = Except.ok ((content ++ [0])[i]?) := by
  have hscan := scanSize_spec content rest hnz hlen content.length 1
    ((content ++ 0 :: rest).length + 1) (le_refl _) (by omega) (by simp; omega)
  obtain ⟨r, e, hw, hz⟩ := allocIfLarge_zeroed E (content.length + 1) hf
  obtain ⟨b2, h1, h2, h3⟩ := forRange_copyInto E (readArr (content ++ 0 :: rest))
    (fun i => (content ++ [0])[i]?) r.size 0 r hw (by have := hw.2.1; omega)
    (by
      intro i _ hi
      have hi2 : i < (content ++ 0 :: rest).length := by simp; omega
      rw [readArr_eq _ i hi2]
      have hi3 : i < (content ++ [0]).length := by simp; omega
      beta_reduce
      rw [List.getElem?_eq_getElem hi3]
      congr 2
      by_cases hc : i < content.length
      · rw [List.getElem_append_left hc, List.getElem_append_left hc]
      · have : i = content.length := by omega
        subst this
        rw [List.getElem_append_right (le_refl _), List.getElem_append_right (le_refl _)]
        simp)
  refine ⟨r.withBuf b2, ?_, wf_withBuf E r hw b2 h2, by rw [size_withBuf, hz], ?_⟩
  · unfold of_ptr
    rw [hscan]
    simp [e, bind, Mem.bind, h1, Mem.lift]
  · intro i hi
    rw [get_ok_iff E _ (wf_withBuf E r hw b2 h2), buf_withBuf, h3 i]
    have : (0 ≤ i ∧ i < 0 + r.size) := by omega
    rw [if_pos this]

theorem copy_spec (E : Env) (o : String) (hwo : WF E o)
    (hf : small_str_max_size E < o.size → Fits E o.size) :
    ∃ r, copy E o = Except.ok (r, ctorLog E o.size)
      ∧ WF E r ∧ r.size = o.size
      ∧ ∀ i, i < o.size → get E r i = get E o i := by
  obtain ⟨r, e, hw, hz⟩ := allocIfLarge_zeroed E o.size hf
  have hob := hwo.2.1
  obtain ⟨b2, h1, h2, h3⟩ := forRange_copyInto E (get E o) (fun i => o.buf[i]?.getD none)
    r.size 0 r hw (by have := hw.2.1; omega)
    (fun i _ hi => get_getD E o hwo i (by omega))
  refine ⟨r.withBuf b2, ?_, wf_withBuf E r hw b2 h2, by rw [size_withBuf, hz], ?_⟩
  · simp [copy, e, bind, Mem.bind, h1, Mem.lift]
  · intro i hi
    rw [get_getD E o hwo i (by omega), get_ok_iff E _ (wf_withBuf E r hw b2 h2), buf_withBuf, h3 i]
    have : (0 ≤ i ∧ i < 0 + r.size) := by omega
    rw [if_pos this]

end String

namespace String

theorem mk_sized_spec (E : Env) (n : Nat) (hn : n < 2 ^ 64)
    (hf : small_str_max_size E < n → Fits E n) :
    ∃ r, mk_sized E n = Except.ok (r, ctorLog E n) ∧ WF E r ∧ r.size = n
      ∧ (1 ≤ n → r.buf[n - 1]? = some (some 0)) := by
  by_cases h : n ≤ small_str_max_size E
  · refine ⟨{ data := zeroed E, size := n }, ?_, wf_zeroed E n h, rfl, ?_⟩
    · have : ¬ (small_str_max_size E < n) := by omega
      simp [mk_sized, this, ctorLog, pure, Mem.pure]
    · intro h1
      simp only [buf, zeroed]
      rw [List.getElem?_replicate]
      have : n - 1 < small_str_max_size E := by omega
      simp [this]
  · have hlt : small_str_max_size E < n := by omega
    have hF := hf hlt
    have hw : wrap ((n : Int) - 1) = n - 1 := wrap_sub_one n (by omega) hn
    refine ⟨{ data := Data.large (some ((List.replicate n none).set (n - 1) (some 0))), size := n },
      ?_, wf_large E n _ hlt hn (by simp), rfl, ?_⟩
    · simp only [mk_sized, gt_iff_lt, hlt, if_true, bind, Mem.bind, allocate_of_fits E n hF, hw,
        Ptr.write, Except.bind]
      rw [Buf.write_of_lt _ _ _ (by simp; omega)]
      simp [Mem.lift, pure, Mem.pure, ctorLog, hlt, Except.pure]
    · intro _
      simp only [buf]
      rw [List.getElem?_set]
      simp
      omega

theorem forRange_copyOut (E : Env) (s : String) (hw : WF E s) :
    ∀ (n lo : Nat) (nd : Buf Nat), lo + n ≤ s.buf.length → lo + n ≤ nd.length →
    ∃ b2, forRange (copyOut E s) lo n (some nd) = Except.ok (some b2)
      ∧ b2.length = nd.length
      ∧ ∀ i, b2[i]? = if lo ≤ i ∧ i < lo + n then s.buf[i]? else nd[i]? := by
  intro n
  induction n with
  | zero =>
    intro lo nd _ _
    refine ⟨nd, by simp [forRange], rfl, ?_⟩
    intro i
    have : ¬ (lo ≤ i ∧ i < lo) := by omega
    simp [this]
  | succ n ih =>
    intro lo nd hs hd
    have hstep : copyOut E s lo (some nd)
        = Except.ok (some (nd.set lo (s.buf[lo]?.getD none))) := by
      simp only [copyOut, get_getD E s hw lo (by omega), bind, Except.bind, Ptr.write]
      rw [Buf.write_of_lt nd lo _ (by omega)]
      rfl
    obtain ⟨b2, h1, h2, h3⟩ := ih (lo + 1) (nd.set lo (s.buf[lo]?.getD none)) (by omega)
      (by simp; omega)
    refine ⟨b2, ?_, by simpa using h2, ?_⟩
    · simp only [forRange, hstep]
      exact h1
    · intro i
      rw [h3 i]
      by_cases hi : i = lo
      · subst hi
        have h4 : ¬ (i + 1 ≤ i ∧ i < i + 1 + n) := by omega
        have h5 : (i ≤ i ∧ i < i + (n + 1)) := by omega
        rw [if_neg h4, if_pos h5, List.getElem?_set]
        have h6 : i < s.buf.length := by omega
        simp [List.getElem?_eq_getElem h6]
        omega
      · by_cases hc : lo + 1 ≤ i ∧ i < lo + 1 + n
        · have h4 : (lo ≤ i ∧ i < lo + (n + 1)) := by omega
          rw [if_pos hc, if_pos h4]
        · have h4 : ¬ (lo ≤ i ∧ i < lo + (n + 1)) := by omega
          rw [if_neg hc, if_neg h4, List.getElem?_set]
          have : ¬ (lo = i) := fun h => hi h.symm
          simp [this]

theorem forRange_copyIn (E : Env) (cb : Buf Nat) :
    ∀ (n lo : Nat) (cells : Buf Nat), lo + n ≤ cb.length → lo + n ≤ cells.length →
    ∃ b2, forRange (copyIn E (some cb)) lo n (Data.small cells) = Except.ok (Data.small b2)
      ∧ b2.length = cells.length
      ∧ ∀ i, b2[i]? = if lo ≤ i ∧ i < lo + n then cb[i]? else cells[i]? := by
  intro n
  induction n with
  | zero =>
    intro lo cells _ _
    refine ⟨cells, by simp [forRange], rfl, ?_⟩
    intro i
    have : ¬ (lo ≤ i ∧ i < lo) := by omega
    simp [this]
  | succ n ih =>
    intro lo cells hs hd
    have hstep : copyIn E (some cb) lo (Data.small cells)
        = Except.ok (Data.small (cells.set lo (cb[lo]?.getD none))) := by
      simp only [copyIn, Ptr.read, read_getD cb lo (by omega), bind, Except.bind, writeSmall]
      rw [Buf.write_of_lt cells lo _ (by omega)]
      rfl
    obtain ⟨b2, h1, h2, h3⟩ := ih (lo + 1) (cells.set lo (cb[lo]?.getD none)) (by omega)
      (by simp; omega)
    refine ⟨b2, ?_, by simpa using h2, ?_⟩
    · simp only [forRange, hstep]
      exact h1
    · intro i
      rw [h3 i]
      by_cases hi : i = lo
      · subst hi
        have h4 : ¬ (i + 1 ≤ i ∧ i < i + 1 + n) := by omega
        have h5 : (i ≤ i ∧ i < i + (n + 1)) := by omega
        rw [if_neg h4, if_pos h5, List.getElem?_set]
        have h6 : i < cb.length := by omega
        simp [List.getElem?_eq_getElem h6]
        omega
      · by_cases hc : lo + 1 ≤ i ∧ i < lo + 1 + n
        · have h4 : (lo ≤ i ∧ i < lo + (n + 1)) := by omega
          rw [if_pos hc, if_pos h4]
        · have h4 : ¬ (lo ≤ i ∧ i < lo + (n + 1)) := by omega
          rw [if_neg hc, if_neg h4, List.getElem?_set]
          have : ¬ (lo = i) := fun h => hi h.symm
          simp [this]

end String

namespace String

theorem resize_spec (E : Env) (s : String) (ns : Nat) (hw : WF E s) (h1 : 1 ≤ ns)
    (hn : ns < 2 ^ 64) (hf : small_str_max_size E < ns → Fits E ns) :
    ∃ r, resize E s ns
        = Except.ok (r, ctorLog E ns ++ (if small_str_max_size E < s.size then [MemEvent.free] else []))
      ∧ WF E r ∧ r.size = ns
      ∧ (∀ i, i < s.size → i < ns - 1 → get E r i = get E s i)
      ∧ get E r (ns - 1) = Except.ok (some 0) := by
  have hwr : wrap ((ns : Int) - 1) = ns - 1 := wrap_sub_one ns (by omega) hn
  have hK := small_str_max_size_le E
  -- the state before the final sentinel write determines the result
  suffices hmid : ∃ s1, WF E s1 ∧ s1.size = ns
      ∧ (∀ i, i < s.size → i < ns - 1 → s1.buf[i]? = s.buf[i]?)
      ∧ resize E s ns = (match set E s1 (wrap ((s1.size : Int) - 1)) (some 0) with
          | Except.error e => Except.error e
          | Except.ok r => Except.ok (r, ctorLog E ns ++
              (if small_str_max_size E < s.size then [MemEvent.free] else []))) by
    obtain ⟨s1, hw1, hz1, hk1, he⟩ := hmid
    have hlen : ns - 1 < s1.buf.length := by have := hw1.2.1; omega
    have hset := set_eq E s1 hw1 (ns - 1) (some 0) hlen
    have hw2 := wf_withBuf E s1 hw1 (s1.buf.set (ns - 1) (some 0)) (by simp)
    refine ⟨s1.withBuf (s1.buf.set (ns - 1) (some 0)), ?_, hw2, by rw [size_withBuf, hz1], ?_, ?_⟩
    · rw [he, hz1, hwr, hset]
    · intro i hi hi2
      have hsb := hw.2.1
      rw [get_getD E s hw i (by omega), get_ok_iff E _ hw2, buf_withBuf, List.getElem?_set]
      have hne : ¬ (ns - 1 = i) := by omega
      rw [if_neg hne, hk1 i hi hi2, List.getElem?_eq_getElem (show i < s.buf.length by omega)]
      rfl
    · rw [get_ok_iff E _ hw2, buf_withBuf, List.getElem?_set]
      simp [hlen]
  by_cases hbig : small_str_max_size E < ns
  · -- the new text is on the heap
    have hF := hf hbig
    have hsb := hw.2.1
    have hbig2 : ns > small_str_max_size E := hbig
    obtain ⟨m, hmd⟩ : ∃ m, m = (if ns > s.size then s.size else ns) := ⟨_, rfl⟩
    have hm : m ≤ s.size := by rw [hmd]; split <;> omega
    have hm2 : m ≤ ns := by rw [hmd]; split <;> omega
    have hm3 : ∀ i, i < s.size → i < ns - 1 → i < m := by
      intro i _ _; rw [hmd]; split <;> omega
    obtain ⟨b2, e2, l2, c2⟩ := forRange_copyOut E s hw m 0
      (List.replicate ns none) (by omega) (by simp; omega)
    have hfree : freeIfLarge E s
        = Except.ok ((), if small_str_max_size E < s.size then [MemEvent.free] else []) := by
      obtain ⟨_, _, hin, _, hh⟩ := hw
      rcases s with ⟨d, n⟩
      cases d with
      | small cells =>
        simp only [inline, is_small] at hin
        have h : n ≤ small_str_max_size E := of_decide_eq_true hin.symm
        have h2 : ¬ (small_str_max_size E < n) := by omega
        simp [freeIfLarge, is_small, h, h2, pure, Mem.pure]
      | large p =>
        simp only [inline, is_small] at hin
        have h : ¬ (n ≤ small_str_max_size E) := of_decide_eq_false hin.symm
        have h2 : small_str_max_size E < n := by omega
        cases p with
        | none => simp [inline, uses_heap] at hh
        | some b =>
          simp [freeIfLarge, is_small, h, h2, readLarge, Mem.lift, deallocate, bind, Mem.bind]
    refine ⟨{ data := Data.large (some b2), size := ns }, wf_large E ns b2 hbig hn (by simp [l2]),
      rfl, ?_, ?_⟩
    · intro i hi hi2
      show b2[i]? = s.buf[i]?
      rw [c2 i]
      have : (0 ≤ i ∧ i < 0 + m) := by have := hm3 i hi hi2; omega
      rw [if_pos this]
    · simp only [resize, hbig2, if_true, ← hmd, bind, Mem.bind, allocate_of_fits E ns hF, e2,
        Mem.lift, hfree, pure, Mem.pure, ctorLog, hbig]
      cases set E { data := Data.large (some b2), size := ns }
        (wrap ((ns : Int) - 1)) (some 0) <;> simp
  · have hnl : ¬ (ns > small_str_max_size E) := hbig
    have hlog : ctorLog E ns = [] := by simp [ctorLog, hbig]
    by_cases hsm : is_small E s = true
    · -- inline before and after
      have hsz : s.size ≤ small_str_max_size E := of_decide_eq_true hsm
      have hnf : ¬ (small_str_max_size E < s.size) := by omega
      obtain ⟨_, hb, hin, hlenK, hh⟩ := hw
      have hinl : s.inline = true := by rw [hin, hsm]
      refine ⟨{ s with size := ns }, ⟨hn, ?_, ?_, ?_, ?_⟩, rfl, fun _ _ _ => rfl, ?_⟩
      · show ns ≤ s.buf.length
        rw [hlenK hinl]; omega
      · show s.inline = is_small E { s with size := ns }
        rw [hinl]; symm; simp only [is_small]; apply decide_eq_true; show ns ≤ _; omega
      · exact hlenK
      · exact hh
      · simp only [resize, hnl, if_false, hsm, if_true, bind, Mem.bind, pure, Mem.pure, hlog,
          hnf, Mem.lift]
        cases set E { data := s.data, size := ns } (wrap ((ns : Int) - 1)) (some 0) <;> simp
    · -- from the heap to the inline array
      have hsz : ¬ (s.size ≤ small_str_max_size E) := by
        intro h; exact hsm (decide_eq_true h)
      have hfr : small_str_max_size E < s.size := by omega
      obtain ⟨_, hb, hin, hlenK, hh⟩ := hw
      rcases s with ⟨d, n⟩
      cases d with
      | small cells =>
        simp only [inline] at hin
        exact absurd hin.symm hsm
      | large p =>
        cases p with
        | none => simp [inline, uses_heap] at hh
        | some cb =>
          simp only [buf] at hb
          have hfr2 : small_str_max_size E < n := hfr
          have hb2 : n ≤ cb.length := hb
          obtain ⟨m, rfl⟩ : ∃ m, ns = m + 1 := ⟨ns - 1, by omega⟩
          have hfirst : copyIn E (some cb) 0 (Data.large (some cb))
              = Except.ok (Data.small ((List.replicate (small_str_max_size E) none).set 0
                  (cb[0]?.getD none))) := by
            simp only [copyIn, Ptr.read, read_getD cb 0 (by omega), bind, Except.bind, writeSmall]
            rw [Buf.write_of_lt _ 0 _ (by simp; omega)]
            rfl
          obtain ⟨b2, e2, l2, c2⟩ := forRange_copyIn E cb m 1
            ((List.replicate (small_str_max_size E) none).set 0 (cb[0]?.getD none))
            (by omega) (by simp; omega)
          have hl2 : b2.length = small_str_max_size E := by simpa using l2
          refine ⟨{ data := Data.small b2, size := m + 1 }, ⟨hn, ?_, ?_, ?_, ?_⟩, rfl, ?_, ?_⟩
          · simp only [buf]; omega
          · simp only [inline, is_small]; symm; apply decide_eq_true; show m + 1 ≤ _; omega
          · intro _; simpa [buf] using hl2
          · simp [inline]
          · intro i hi hi2
            have hi3 : i < n := hi
            show b2[i]? = cb[i]?
            rw [c2 i]
            by_cases h0 : i = 0
            · subst h0
              have : ¬ (1 ≤ 0 ∧ 0 < 1 + m) := by omega
              rw [if_neg this, List.getElem?_set]
              have h6 : 0 < cb.length := by omega
              simp [List.getElem?_eq_getElem h6]
              omega
            · have : (1 ≤ i ∧ i < 1 + m) := by omega
              rw [if_pos this]
          · have hsm2 : is_small E { data := Data.large (some cb), size := n } = false := by
              simpa using hsm
            simp only [resize, hnl, if_false, hsm2, bind, Mem.bind, pure, Mem.pure, hlog,
              Mem.lift, readLarge, forRange, hfirst, e2, deallocate, hfr2, if_true]
            simp only [Bool.false_eq_true, if_false]
            cases set E { data := Data.small b2, size := m + 1 }
              (wrap (((m + 1 : Nat) : Int) - 1)) (some 0) <;> simp

end String

namespace String

theorem ptrAt_eq (E : Env) (s : String) (hw : WF E s) (off : Nat) :
    ptrAt E s off = Except.ok { base := some s.buf, off := off } := by
  obtain ⟨_, _, hin, _, hh⟩ := hw
  unfold ptrAt
  rcases s with ⟨d, n⟩
  cases d with
  | small cells =>
    simp only [inline] at hin
    simp [← hin, buf]
  | large p =>
    simp only [inline] at hin hh
    cases p with
    | none => simp [uses_heap] at hh
    | some b => simp [← hin, readLarge, buf, bind, Except.bind, pure, Except.pure]

theorem substr_spec (E : Env) (s : String) (b e : Nat) (hw : WF E s) (hbe : b ≤ e)
    (hes : e ≤ s.size) (hsz : s.size < npos)
    (hf : small_str_max_size E < e - b + 1 → Fits E (e - b + 1)) :
    ∃ r, substr E s b e = Except.ok (r, ctorLog E (e - b + 1))
      ∧ WF E r ∧ r.size = e - b + 1
      ∧ (∀ k, k < e - b → get E r k = get E s (b + k))
      ∧ get E r (e - b) = Except.ok (some 0) := by
  rw [npos_eq] at hsz
  have hne : e ≠ npos := by rw [npos_eq]; omega
  have hw1 : wrap ((e : Int) - b + 1) = e - b + 1 := by unfold wrap; omega
  have hw2 : wrap ((e : Int) - b) = e - b := by unfold wrap; omega
  have hsb := hw.2.1
  obtain ⟨r0, e0, hwr, hz0, ht0⟩ := mk_sized_spec E (e - b + 1) (by omega) hf
  obtain ⟨b2, h1, h2, h3⟩ := forRange_copyInto E (fun i => Ptr.read (some s.buf) (b + i))
    (fun i => s.buf[b + i]?.getD none) (e - b) 0 r0 hwr (by have := hwr.2.1; omega)
    (fun i _ hi => read_getD s.buf (b + i) (by omega))
  have hwr2 := wf_withBuf E r0 hwr b2 h2
  refine ⟨r0.withBuf b2, ?_, hwr2, by rw [size_withBuf, hz0], ?_, ?_⟩
  · simp only [substr, hne, if_false, ptrAt_eq E s hw, Mem.lift, bind, Mem.bind, substr_ptr,
      isNull, Option.isNone_some, Bool.false_and]
    simp only [Bool.false_eq_true, if_false]
    rw [hw1, hw2, e0]
    simp only [h1]
    simp
  · intro k hk
    rw [get_getD E s hw (b + k) (by omega), get_ok_iff E _ hwr2, buf_withBuf, h3 k]
    have : (0 ≤ k ∧ k < 0 + (e - b)) := by omega
    rw [if_pos this]
  · rw [get_ok_iff E _ hwr2, buf_withBuf, h3 (e - b)]
    have : ¬ (0 ≤ e - b ∧ e - b < 0 + (e - b)) := by omega
    rw [if_neg this]
    have := ht0 (by omega)
    simpa using this

theorem add_spec (E : Env) (a b : String) (hwa : WF E a) (hwb : WF E b) (ha : 1 ≤ a.size)
    (hsum : a.size + b.size - 1 < 2 ^ 64)
    (hf : small_str_max_size E < a.size + b.size - 1 → Fits E (a.size + b.size - 1)) :
    ∃ r, add E a b = Except.ok (r, ctorLog E (a.size + b.size - 1))
      ∧ WF E r ∧ r.size = a.size + b.size - 1
      ∧ (∀ i, i + 1 < a.size → get E r i = get E a i)
      ∧ (∀ j, j < b.size → get E r (a.size - 1 + j) = get E b j) := by
  have hw1 : wrap ((a.size : Int) + b.size - 1) = a.size + b.size - 1 := by unfold wrap; omega
  have hw2 : wrap ((a.size : Int) - 1) = a.size - 1 := by unfold wrap; omega
  have hsa := hwa.2.1
  have hsb := hwb.2.1
  obtain ⟨r0, e0, hwr, hz0, _⟩ := mk_sized_spec E (a.size + b.size - 1) hsum hf
  have hr0 := hwr.2.1
  obtain ⟨b1, h1, h2, h3⟩ := forRange_copyInto E (get E a) (fun i => a.buf[i]?.getD none)
    (a.size - 1) 0 r0 hwr (by omega) (fun i _ hi => get_getD E a hwa i (by omega))
  have hwr1 := wf_withBuf E r0 hwr b1 h2
  obtain ⟨b2, g1, g2, g3⟩ := forRange_copyInto E
    (fun i => get E b (wrap ((i : Int) - ((a.size : Int) - 1))))
    (fun i => b.buf[i - (a.size - 1)]?.getD none) b.size (a.size - 1) (r0.withBuf b1) hwr1
    (by rw [buf_withBuf, h2]; omega)
    (by
      intro i hi1 hi2
      have hwi : wrap ((i : Int) - ((a.size : Int) - 1)) = i - (a.size - 1) := by
        unfold wrap; omega
      beta_reduce
      rw [hwi]
      exact get_getD E b hwb _ (by omega))
  rw [withBuf_withBuf] at g1
  rw [buf_withBuf] at g2 g3
  have hwr2 := wf_withBuf E r0 hwr b2 (by rw [g2, h2])
  refine ⟨r0.withBuf b2, ?_, hwr2, by rw [size_withBuf, hz0], ?_, ?_⟩
  · have hd : a.size + b.size - 1 - (a.size - 1) = b.size := by omega
    simp only [add, length, hw1, hw2, e0, bind, Mem.bind, Mem.lift, h1, hd, g1]
    simp
  · intro i hi
    rw [get_getD E a hwa i (by omega), get_ok_iff E _ hwr2, buf_withBuf, g3 i]
    have : ¬ (a.size - 1 ≤ i ∧ i < a.size - 1 + b.size) := by omega
    rw [if_neg this, h3 i]
    have : (0 ≤ i ∧ i < 0 + (a.size - 1)) := by omega
    rw [if_pos this]
  · intro j hj
    rw [get_getD E b hwb j (by omega), get_ok_iff E _ hwr2, buf_withBuf, g3 (a.size - 1 + j)]
    have : (a.size - 1 ≤ a.size - 1 + j ∧ a.size - 1 + j < a.size - 1 + b.size) := by omega
    rw [if_pos this]
    simp

theorem findFrom_spec (E : Env) (s : String) (c : Nat) :
    ∀ (n i : Nat),
      (∀ k, i ≤ k → k < i + n → ∃ u, get E s k = Except.ok (some u)) →
      (∃ k, i ≤ k ∧ k < i + n ∧ get E s k = Except.ok (some c)
          ∧ (∀ j, i ≤ j → j < k → get E s j ≠ Except.ok (some c))
          ∧ findFrom E s c i n = Except.ok { str := s, index := k })
      ∨ ((∀ k, i ≤ k → k < i + n → get E s k ≠ Except.ok (some c))
          ∧ findFrom E s c i n = Except.ok { str := s, index := npos }) := by
  intro n
  induction n with
  | zero =>
    intro i _
    right
    exact ⟨fun k h1 h2 => by omega, rfl⟩
  | succ n ih =>
    intro i hdet
    obtain ⟨u, hu⟩ := hdet i (le_refl _) (by omega)
    by_cases huc : u = c
    · left
      subst huc
      refine ⟨i, le_refl _, by omega, hu, fun j h1 h2 => by omega, ?_⟩
      simp [findFrom, hu]
    · have hrec : findFrom E s c i (n + 1) = findFrom E s c (i + 1) n := by
        simp [findFrom, hu, huc]
      rcases ih (i + 1) (fun k h1 h2 => hdet k (by omega) (by omega)) with
        ⟨k, hk1, hk2, hk3, hk4, hk5⟩ | ⟨hn1, hn2⟩
      · left
        refine ⟨k, by omega, by omega, hk3, ?_, by rw [hrec, hk5]⟩
        intro j hj1 hj2
        by_cases hji : j = i
        · subst hji
          rw [hu]
          intro h
          injection h with h
          injection h with h
          exact huc h
        · exact hk4 j (by omega) hj2
      · right
        refine ⟨?_, by rw [hrec, hn2]⟩
        intro k hk1 hk2
        by_cases hki : k = i
        · subst hki
          rw [hu]
          intro h
          injection h with h
          injection h with h
          exact huc h
        · exact hn1 k (by omega) (by omega)

end String

/-! ## The claims about `String` -/

/-- C3 at its failing input: the literal with the content units 97, 0, 98 (the array
97, 0, 98, 0, content length 3) is taken by the pointer constructor, which stops at the
first zero: `length()` is 2 and not 4, and the unit 98 is not stored.  The body of the
array constructor, which overload resolution never selects for such an argument, would
give length 4 with the unit 98 at index 2.  For a literal whose content units are all
non-zero, and for a pointer to memory whose first zero is at offset `L`, the text has
`length() == L + 1`, the source's unit at every index `i < L` and zero at index `L`. -/
theorem C3_literal_takes_pointer_constructor :
    String.of_literal charEnv [97, 0, 98, 0] = Except.ok (str_a, [])
    ∧ str_a.length = 2
    ∧ String.get charEnv str_a 2 = Except.ok (some 0)
    ∧ String.of_array charEnv [97, 0, 98, 0]
        = Except.ok (inlineText [97, 0, 98, 0, 0, 0, 0, 0] 4, [])
    ∧ (inlineText [97, 0, 98, 0, 0, 0, 0, 0] 4).length = 4
    ∧ String.get charEnv (inlineText [97, 0, 98, 0, 0, 0, 0, 0] 4) 2 = Except.ok (some 98)
    ∧ (∀ (E : Env) (content : List Nat), (∀ c, c ∈ content → c ≠ 0) →
        (String.small_str_max_size E < content.length + 1 → Fits E (content.length + 1)) →
        ∃ r log, String.of_literal E (content ++ [0]) = Except.ok (r, log)
          ∧ r.length = content.length + 1
          ∧ (∀ i (h : i < content.length), String.get E r i = Except.ok (some content[i]))
          ∧ String.get E r content.length = Except.ok (some 0))
    ∧ (∀ (E : Env) (content rest : List Nat), (∀ c, c ∈ content → c ≠ 0) →
        (String.small_str_max_size E < content.length + 1 → Fits E (content.length + 1)) →
        ∃ r log, String.of_ptr E (content ++ 0 :: rest) = Except.ok (r, log)
          ∧ r.length = content.length + 1
          ∧ (∀ i (h : i < content.length), String.get E r i = Except.ok (some content[i]))
          ∧ String.get E r content.length = Except.ok (some 0)) := by
  have hptr : ∀ (E : Env) (content rest : List Nat), (∀ c, c ∈ content → c ≠ 0) →
      (String.small_str_max_size E < content.length + 1 → Fits E (content.length + 1)) →
      ∃ r log, String.of_ptr E (content ++ 0 :: rest) = Except.ok (r, log)
        ∧ r.length = content.length + 1
        ∧ (∀ i (h : i < content.length), String.get E r i = Except.ok (some content[i]))
        ∧ String.get E r content.length = Except.ok (some 0) := by
    intro E content rest hnz hf
    have hK := String.small_str_max_size_le E
    have hlen : content.length + 1 < 2 ^ 64 := by
      by_cases h : String.small_str_max_size E < content.length + 1
      · exact (hf h).lt
      · omega
    obtain ⟨r, e, _, hz, hc⟩ := String.of_ptr_spec E content rest hnz hlen hf
    refine ⟨r, _, e, by simpa [String.length] using hz, ?_, ?_⟩
    · intro i h
      rw [hc i (by omega), List.getElem?_append_left h, List.getElem?_eq_getElem h]
    · rw [hc content.length (by omega), List.getElem?_append_right (le_refl _)]
      simp
  refine ⟨by decide, by decide, by decide, by decide, by decide, by decide, ?_, hptr⟩
  intro E content hnz hf
  exact hptr E content [] hnz hf

/-- C4 fails for the default-constructed `a` (stored length 0) and `b` the text "x":
`a.length() - 1` wraps to the largest `SizeType` value and the first loop of `operator+`
runs past the inline array of the result, so no result with the stated length and code
units exists. -/
theorem C4_counterexample :
    String.WF charEnv (String.init charEnv) ∧ String.WF charEnv str_x
    ∧ String.add charEnv (String.init charEnv) str_x = Except.error Fault.outOfBounds
    ∧ ¬ ∃ r log, String.add charEnv (String.init charEnv) str_x = Except.ok (r, log)
        ∧ r.length = (String.init charEnv).length + str_x.length - 1
        ∧ (∀ i, i + 2 ≤ (String.init charEnv).length →
            String.get charEnv r i = String.get charEnv (String.init charEnv) i)
        ∧ (∀ j, j < str_x.length →
            String.get charEnv r ((String.init charEnv).length - 1 + j)
              = String.get charEnv str_x j) := by
  have h : String.add charEnv (String.init charEnv) str_x = Except.error Fault.outOfBounds := by
    decide
  refine ⟨by decide, by decide, h, ?_⟩
  rintro ⟨r, log, e, _⟩
  rw [h] at e
  cases e

/-- C4 as amended: for texts `a` and `b` in a consistent state with `a.length() >= 1`,
the sum of the lengths representable and the allocation of a long result succeeding,
`(a + b).length() == a.length() + b.length() - 1`, the units at indices
`0..a.length()-2` are those of `a`, and the unit at `a.length()-1+j` is `b[j]` for every
`j < b.length()`. -/
theorem C4_concatenation (E : Env) (a b : String) (hwa : String.WF E a) (hwb : String.WF E b)
    (ha : 1 ≤ a.length) (hsum : a.length + b.length - 1 < 2 ^ 64)
    (hf : String.small_str_max_size E < a.length + b.length - 1 →
      Fits E (a.length + b.length - 1)) :
    ∃ r log, String.add E a b = Except.ok (r, log)
      ∧ r.length = a.length + b.length - 1
      ∧ (∀ i, i + 2 ≤ a.length → String.get E r i = String.get E a i)
      ∧ (∀ j, j < b.length → String.get E r (a.length - 1 + j) = String.get E b j) := by
  obtain ⟨r, e, _, hz, h1, h2⟩ := String.add_spec E a b hwa hwb ha hsum hf
  exact ⟨r, _, e, hz, fun i hi => h1 i (by simp only [String.length] at hi; omega), h2⟩

/-- C4 as amended, at "ab" + "abcdefgh". -/
theorem C4_concatenation_witness :
    (String.WF charEnv str_ab ∧ String.WF charEnv str_8 ∧ 1 ≤ str_ab.length
      ∧ str_ab.length + str_8.length - 1 < 2 ^ 64
      ∧ (String.small_str_max_size charEnv < str_ab.length + str_8.length - 1 →
          Fits charEnv (str_ab.length + str_8.length - 1)))
    ∧ ∃ r log, String.add charEnv str_ab str_8 = Except.ok (r, log)
      ∧ r.length = str_ab.length + str_8.length - 1
      ∧ (∀ i, i + 2 ≤ str_ab.length → String.get charEnv r i = String.get charEnv str_ab i)
      ∧ (∀ j, j < str_8.length →
          String.get charEnv r (str_ab.length - 1 + j) = String.get charEnv str_8 j) :=
  ⟨⟨by decide, by decide, by decide, by decide, by decide⟩,
    C4_concatenation charEnv str_ab str_8 (by decide) (by decide) (by decide) (by decide)
      (by decide)⟩


/-- The concrete texts used below are what the constructors build from the literals. -/
theorem concrete_texts :
    String.of_array charEnv lit_ab = Except.ok (str_ab, [])
    ∧ String.of_array charEnv lit_abc = Except.ok (str_abc, [])
    ∧ String.of_array charEnv lit_a = Except.ok (str_a, [])
    ∧ String.of_array charEnv lit_x = Except.ok (str_x, [])
    ∧ String.of_array charEnv lit_8 = Except.ok (str_8, [MemEvent.alloc 9 true]) := by
  decide

/-- The same texts are what the program builds from the literals, where overload
resolution takes the pointer constructor. -/
theorem concrete_texts_by_pointer :
    String.of_literal charEnv lit_ab = Except.ok (str_ab, [])
    ∧ String.of_literal charEnv lit_abc = Except.ok (str_abc, [])
    ∧ String.of_literal charEnv lit_a = Except.ok (str_a, [])
    ∧ String.of_literal charEnv lit_x = Except.ok (str_x, [])
    ∧ String.of_literal charEnv lit_8 = Except.ok (str_8, [MemEvent.alloc 9 true])
    ∧ String.of_literal charEnv lit_empty = Except.ok (str_empty, [])
    ∧ String.of_literal charEnv lit_bc = Except.ok (str_bc, []) := by
  decide

/-- C5: the representation is a function of the stored size alone.  Each of construction
from a literal, construction from a zero-terminated pointer, copy construction,
`resize(ns)` with `ns >= 1`, `substr` and `operator+`, applied to texts in a consistent
state with the allocation of a long result succeeding, yields a text in a consistent
state that owns a heap buffer if and only if `length() > small_str_max_size`
(`sizeof(T*) / sizeof(T)`, 8 for `char`); a literal of `small_str_max_size - 1` content
units is inline and one of `small_str_max_size` content units is on the heap; `resize`
from above the threshold to at most the threshold calls `deallocate` once, allocates
nothing, and leaves the inline array active with the retained units. -/
theorem C5_representation_follows_size (E : Env) :
    String.small_str_max_size E = sizeofPtr / E.sizeofT
    ∧ (∀ lit : List Nat,
        (String.small_str_max_size E < lit.length → Fits E lit.length) →
        ∃ r log, String.of_array E lit = Except.ok (r, log) ∧ String.WF E r
          ∧ r.length = lit.length
          ∧ (r.uses_heap = true ↔ String.small_str_max_size E < r.length))
    ∧ (∀ content rest : List Nat, (∀ c, c ∈ content → c ≠ 0) →
        (String.small_str_max_size E < content.length + 1 → Fits E (content.length + 1)) →
        ∃ r log, String.of_ptr E (content ++ 0 :: rest) = Except.ok (r, log) ∧ String.WF E r
          ∧ r.length = content.length + 1
          ∧ (r.uses_heap = true ↔ String.small_str_max_size E < r.length))
    ∧ (∀ o : String, String.WF E o →
        (String.small_str_max_size E < o.length → Fits E o.length) →
        ∃ r log, String.copy E o = Except.ok (r, log) ∧ String.WF E r
          ∧ (r.uses_heap = true ↔ String.small_str_max_size E < r.length))
    ∧ (∀ (s : String) (ns : Nat), String.WF E s → 1 ≤ ns → ns < 2 ^ 64 →
        (String.small_str_max_size E < ns → Fits E ns) →
        ∃ r log, String.resize E s ns = Except.ok (r, log) ∧ String.WF E r
          ∧ (r.uses_heap = true ↔ String.small_str_max_size E < r.length)
          ∧ (String.small_str_max_size E < s.length → ns ≤ String.small_str_max_size E →
              log = [MemEvent.free] ∧ r.inline = true
              ∧ ∀ i, i + 1 < ns → String.get E r i = String.get E s i))
    ∧ (∀ (s : String) (b e : Nat), String.WF E s → b ≤ e → e ≤ s.length →
        s.length < String.npos →
        (String.small_str_max_size E < e - b + 1 → Fits E (e - b + 1)) →
        ∃ r log, String.substr E s b e = Except.ok (r, log) ∧ String.WF E r
          ∧ (r.uses_heap = true ↔ String.small_str_max_size E < r.length))
    ∧ (∀ a b : String, String.WF E a → String.WF E b → 1 ≤ a.length →
        a.length + b.length - 1 < 2 ^ 64 →
        (String.small_str_max_size E < a.length + b.length - 1 →
          Fits E (a.length + b.length - 1)) →
        ∃ r log, String.add E a b = Except.ok (r, log) ∧ String.WF E r
          ∧ (r.uses_heap = true ↔ String.small_str_max_size E < r.length))
    ∧ (∀ content : List Nat, content.length + 1 = String.small_str_max_size E →
        ∃ r, String.of_array E (content ++ [0]) = Except.ok (r, []) ∧ r.uses_heap = false)
    ∧ (∀ content : List Nat, content.length = String.small_str_max_size E →
        Fits E (content.length + 1) →
        ∃ r, String.of_array E (content ++ [0])
            = Except.ok (r, [MemEvent.alloc ((content.length + 1) * E.sizeofT) true])
          ∧ r.uses_heap = true) := by
  have hiff : ∀ r : String, String.WF E r →
      (r.uses_heap = true ↔ String.small_str_max_size E < r.length) := by
    intro r hw
    rw [String.uses_heap_eq E r hw]
    simp [String.length]
  refine ⟨rfl, ?_, ?_, ?_, ?_, ?_, ?_, ?_, ?_⟩
  · intro lit hf
    obtain ⟨r, e, hw, hz, _⟩ := String.of_array_spec E lit hf
    exact ⟨r, _, e, hw, hz, hiff r hw⟩
  · intro content rest hnz hf
    have hK := String.small_str_max_size_le E
    have hlen : content.length + 1 < 2 ^ 64 := by
      by_cases h : String.small_str_max_size E < content.length + 1
      · exact (hf h).lt
      · omega
    obtain ⟨r, e, hw, hz, _⟩ := String.of_ptr_spec E content rest hnz hlen hf
    exact ⟨r, _, e, hw, hz, hiff r hw⟩
  · intro o hwo hf
    obtain ⟨r, e, hw, _, _⟩ := String.copy_spec E o hwo hf
    exact ⟨r, _, e, hw, hiff r hw⟩
  · intro s ns hws h1 hn hf
    obtain ⟨r, e, hw, hz, hc, _⟩ := String.resize_spec E s ns hws h1 hn hf
    refine ⟨r, _, e, hw, hiff r hw, ?_⟩
    intro hbig hsmall
    have hnb : ¬ (String.small_str_max_size E < ns) := by omega
    have hbig2 : String.small_str_max_size E < s.size := hbig
    refine ⟨by simp [String.ctorLog, hnb, hbig2], ?_, ?_⟩
    · rw [hw.2.2.1]
      simp only [String.is_small]
      apply decide_eq_true
      omega
    · intro i hi
      exact hc i (by omega) (by omega)
  · intro s b e hws hbe hes hsz hf
    obtain ⟨r, e1, hw, _, _⟩ := String.substr_spec E s b e hws hbe hes hsz hf
    exact ⟨r, _, e1, hw, hiff r hw⟩
  · intro a b hwa hwb ha hsum hf
    obtain ⟨r, e, hw, _, _⟩ := String.add_spec E a b hwa hwb ha hsum hf
    exact ⟨r, _, e, hw, hiff r hw⟩
  · intro content hc
    have hnb : ¬ (String.small_str_max_size E < (content ++ [0]).length) := by
      simp only [List.length_append, List.length_singleton]; omega
    obtain ⟨r, e, hw, hz, _⟩ := String.of_array_spec E (content ++ [0]) (fun h => absurd h hnb)
    refine ⟨r, ?_, ?_⟩
    · rw [e, String.ctorLog, if_neg hnb]
    · rw [String.uses_heap_eq E r hw, hz]
      exact decide_eq_false hnb
  · intro content hc hfit
    have hb : String.small_str_max_size E < (content ++ [0]).length := by
      simp only [List.length_append, List.length_singleton]; omega
    obtain ⟨r, e, hw, hz, _⟩ := String.of_array_spec E (content ++ [0])
      (fun _ => by simpa using hfit)
    refine ⟨r, ?_, ?_⟩
    · rw [e, String.ctorLog, if_pos hb]
      simp
    · rw [String.uses_heap_eq E r hw, hz]
      exact decide_eq_true hb

/-- C5 for `String<char>`: the inline capacity is 8; "abcdefg" (7 content units) is
inline, "abcdefgh" (8 content units) is on the heap, and `resize(3)` of the latter
releases the buffer and keeps "ab" inline. -/
theorem C5_representation_follows_size_witness :
    String.small_str_max_size charEnv = 8
    ∧ (∃ r, String.of_array charEnv ([97, 98, 99, 100, 101, 102, 103] ++ [0]) = Except.ok (r, [])
        ∧ r.uses_heap = false)
    ∧ (∃ r, String.of_array charEnv ([97, 98, 99, 100, 101, 102, 103, 104] ++ [0])
          = Except.ok (r, [MemEvent.alloc (([97, 98, 99, 100, 101, 102, 103, 104].length + 1)
              * charEnv.sizeofT) true])
        ∧ r.uses_heap = true)
    ∧ (∃ r log, String.resize charEnv str_8 3 = Except.ok (r, log) ∧ String.WF charEnv r
          ∧ (r.uses_heap = true ↔ String.small_str_max_size charEnv < r.length)
          ∧ (String.small_str_max_size charEnv < str_8.length →
              3 ≤ String.small_str_max_size charEnv →
              log = [MemEvent.free] ∧ r.inline = true
              ∧ ∀ i, i + 1 < 3 → String.get charEnv r i = String.get charEnv str_8 i)) :=
  ⟨by decide,
    (C5_representation_follows_size charEnv).2.2.2.2.2.2.2.1 [97, 98, 99, 100, 101, 102, 103]
      (by decide),
    (C5_representation_follows_size charEnv).2.2.2.2.2.2.2.2
      [97, 98, 99, 100, 101, 102, 103, 104] (by decide) (by decide),
    (C5_representation_follows_size charEnv).2.2.2.2.1 str_8 3 (by decide) (by decide)
      (by decide) (by decide)⟩

/-- C6 fails for the text "abc" (stored size 4) and `resize(2)`: the code unit at index
1, below `min(4, 2)`, was 98 and is the sentinel 0 afterwards. -/
theorem C6_counterexample :
    String.WF charEnv str_abc
    ∧ String.resize charEnv str_abc 2
        = Except.ok (inlineText [97, 0, 99, 0, 0, 0, 0, 0] 2, [])
    ∧ ¬ ∃ r log, String.resize charEnv str_abc 2 = Except.ok (r, log)
        ∧ r.length = 2
        ∧ (∀ i, i < min str_abc.length 2 →
            String.get charEnv r i = String.get charEnv str_abc i) := by
  have h : String.resize charEnv str_abc 2
      = Except.ok (inlineText [97, 0, 99, 0, 0, 0, 0, 0] 2, []) := by decide
  refine ⟨by decide, h, ?_⟩
  rintro ⟨r, log, e, _, hc⟩
  rw [h] at e
  injection e with e
  injection e with e1 _
  subst e1
  have := hc 1 (by decide)
  revert this
  decide

/-- C6 as amended: for a text `s` in a consistent state and every `newSize >= 1` (the
allocation of a long text succeeding), after `s.resize(newSize)` the `length()` is
`newSize`, every code unit at an index `i < min(oldSize, newSize - 1)` has the value it
had before the call, and the code unit at index `newSize - 1` is zero, whichever of the
four inline/heap transitions the resize takes. -/
theorem C6_resize_frame (E : Env) (s : String) (ns : Nat) (hw : String.WF E s) (h1 : 1 ≤ ns)
    (hn : ns < 2 ^ 64) (hf : String.small_str_max_size E < ns → Fits E ns) :
    ∃ r log, String.resize E s ns = Except.ok (r, log)
      ∧ r.length = ns
      ∧ (∀ i, i < min s.length (ns - 1) → String.get E r i = String.get E s i)
      ∧ String.get E r (ns - 1) = Except.ok (some 0) := by
  obtain ⟨r, e, _, hz, hc, ht⟩ := String.resize_spec E s ns hw h1 hn hf
  refine ⟨r, _, e, hz, ?_, ht⟩
  intro i hi
  simp only [String.length] at hi
  exact hc i (by omega) (by omega)

/-- C6 as amended, at the inline text "abc" grown to 12 units on the heap. -/
theorem C6_resize_frame_witness :
    (String.WF charEnv str_abc ∧ 1 ≤ 12 ∧ 12 < 2 ^ 64
      ∧ (String.small_str_max_size charEnv < 12 → Fits charEnv 12))
    ∧ ∃ r log, String.resize charEnv str_abc 12 = Except.ok (r, log)
      ∧ r.length = 12
      ∧ (∀ i, i < min str_abc.length (12 - 1) → String.get charEnv r i = String.get charEnv str_abc i)
      ∧ String.get charEnv r (12 - 1) = Except.ok (some 0) :=
  ⟨⟨by decide, by decide, by decide, by decide⟩,
    C6_resize_frame charEnv str_abc 12 (by decide) (by decide) (by decide) (by decide)⟩


/-- C7 fails for the text "abc" (stored length 4) and `newLen = 2`: after `resize(2)`
and `resize(4)` the code unit at index 1, below `min(4, 2)`, is 0 and no longer 98. -/
theorem C7_counterexample :
    String.WF charEnv str_abc ∧ String.Terminated charEnv str_abc
    ∧ String.resize charEnv str_abc 2
        = Except.ok (inlineText [97, 0, 99, 0, 0, 0, 0, 0] 2, [])
    ∧ String.resize charEnv (inlineText [97, 0, 99, 0, 0, 0, 0, 0] 2) str_abc.length
        = Except.ok (inlineText [97, 0, 99, 0, 0, 0, 0, 0] 4, [])
    ∧ ¬ ∃ r1 l1 r2 l2, String.resize charEnv str_abc 2 = Except.ok (r1, l1)
        ∧ String.resize charEnv r1 str_abc.length = Except.ok (r2, l2)
        ∧ (∀ i, i < min str_abc.length 2 →
            String.get charEnv r2 i = String.get charEnv str_abc i) := by
  have h1 : String.resize charEnv str_abc 2
      = Except.ok (inlineText [97, 0, 99, 0, 0, 0, 0, 0] 2, []) := by decide
  have h2 : String.resize charEnv (inlineText [97, 0, 99, 0, 0, 0, 0, 0] 2) str_abc.length
      = Except.ok (inlineText [97, 0, 99, 0, 0, 0, 0, 0] 4, []) := by decide
  refine ⟨by decide, by decide, h1, h2, ?_⟩
  rintro ⟨r1, l1, r2, l2, e1, e2, hc⟩
  rw [h1] at e1
  injection e1 with e1
  injection e1 with e1 _
  subst e1
  rw [h2] at e2
  injection e2 with e2
  injection e2 with e2 _
  subst e2
  have := hc 1 (by decide)
  revert this
  decide

/-- C7 as amended: for a zero-terminated text `s` in a consistent state with stored
length `oldLen >= 1` and every `newLen >= 1` (allocations succeeding), `resize(newLen)`
followed by `resize(oldLen)` leaves every code unit at an index `i < min(oldLen, newLen)`
equal to its original value, except, when `newLen < oldLen`, the unit at index
`newLen - 1`, which holds the sentinel zero the first call wrote. -/
theorem C7_resize_round_trip (E : Env) (s : String) (newLen : Nat) (hw : String.WF E s)
    (hterm : String.Terminated E s) (hold : 1 ≤ s.length) (hnew : 1 ≤ newLen)
    (hn : newLen < 2 ^ 64)
    (hf1 : String.small_str_max_size E < newLen → Fits E newLen)
    (hf2 : String.small_str_max_size E < s.length → Fits E s.length) :
    ∃ r1 l1 r2 l2, String.resize E s newLen = Except.ok (r1, l1)
      ∧ String.resize E r1 s.length = Except.ok (r2, l2)
      ∧ r2.length = s.length
      ∧ (∀ i, i < min s.length newLen → (newLen < s.length → i ≠ newLen - 1) →
          String.get E r2 i = String.get E s i)
      ∧ (newLen < s.length → String.get E r2 (newLen - 1) = Except.ok (some 0)) := by
  simp only [String.length] at hold hf2 ⊢
  obtain ⟨r1, e1, hw1, hz1, hc1, ht1⟩ := String.resize_spec E s newLen hw hnew hn hf1
  obtain ⟨r2, e2, _, hz2, hc2, ht2⟩ := String.resize_spec E r1 s.size hw1 hold hw.1 hf2
  refine ⟨r1, _, r2, _, e1, e2, hz2, ?_, ?_⟩
  · intro i hi hne
    by_cases hlast : i = s.size - 1
    · subst hlast
      rw [ht2, hterm hold]
    · rw [hc2 i (by omega) (by omega)]
      exact hc1 i (by omega) (by omega)
  · intro hlt
    rw [hc2 (newLen - 1) (by omega) (by omega)]
    exact ht1

/-- C7 as amended, at "abc" grown to 12 units and shrunk back to 4. -/
theorem C7_resize_round_trip_witness :
    (String.WF charEnv str_abc ∧ String.Terminated charEnv str_abc ∧ 1 ≤ str_abc.length
      ∧ 1 ≤ 12 ∧ 12 < 2 ^ 64
      ∧ (String.small_str_max_size charEnv < 12 → Fits charEnv 12)
      ∧ (String.small_str_max_size charEnv < str_abc.length → Fits charEnv str_abc.length))
    ∧ ∃ r1 l1 r2 l2, String.resize charEnv str_abc 12 = Except.ok (r1, l1)
      ∧ String.resize charEnv r1 str_abc.length = Except.ok (r2, l2)
      ∧ r2.length = str_abc.length
      ∧ (∀ i, i < min str_abc.length 12 → (12 < str_abc.length → i ≠ 12 - 1) →
          String.get charEnv r2 i = String.get charEnv str_abc i)
      ∧ (12 < str_abc.length → String.get charEnv r2 (12 - 1) = Except.ok (some 0)) :=
  ⟨⟨by decide, by decide, by decide, by decide, by decide, by decide, by decide⟩,
    C7_resize_round_trip charEnv str_abc 12 (by decide) (by decide) (by decide) (by decide)
      (by decide) (by decide) (by decide)⟩

/-- C8 at its failing input: the texts "x" and "abc" are zero-terminated, and the copy
assignment `a = b` with `a` the text "x" keeps `a.length() == 2` while copying two units
of "abc", so `a` ends with the unit 98 at index `length() - 1` and not with zero. -/
theorem C8_copy_assignment_loses_sentinel :
    String.WF charEnv str_x ∧ String.Terminated charEnv str_x
    ∧ String.WF charEnv str_abc ∧ String.Terminated charEnv str_abc
    ∧ String.assign charEnv str_x str_abc
        = Except.ok (inlineText [97, 98, 0, 0, 0, 0, 0, 0] 2, [])
    ∧ String.get charEnv (inlineText [97, 98, 0, 0, 0, 0, 0, 0] 2) (2 - 1) = Except.ok (some 98)
    ∧ ¬ String.Terminated charEnv (inlineText [97, 98, 0, 0, 0, 0, 0, 0] 2) := by
  decide

/-- C9: for a text `s` in a consistent state and `begin <= end <= s.length()` (the
allocation of a long result succeeding), `s.substr(begin, end)` has
`length() == end - begin + 1`, its code unit at every `k < end - begin` is
`s[begin + k]`, its code unit at index `end - begin` is zero, and `end = npos` behaves as
`end = s.length()`.  The stored length is below `npos`: a text of `2 ^ 64 - 1` units does
not fit the address space next to the object that owns it. -/
theorem C9_substr (E : Env) (s : String) (b e : Nat) (hw : String.WF E s) (hbe : b ≤ e)
    (hes : e ≤ s.length) (hsz : s.length < String.npos)
    (hf : String.small_str_max_size E < e - b + 1 → Fits E (e - b + 1)) :
    (∃ r log, String.substr E s b e = Except.ok (r, log)
      ∧ r.length = e - b + 1
      ∧ (∀ k, k < e - b → String.get E r k = String.get E s (b + k))
      ∧ String.get E r (e - b) = Except.ok (some 0))
    ∧ String.substr E s b String.npos = String.substr E s b s.length := by
  constructor
  · obtain ⟨r, e1, _, hz, hc, ht⟩ := String.substr_spec E s b e hw hbe hes hsz hf
    exact ⟨r, _, e1, hz, hc, ht⟩
  · simp only [String.substr, String.length, if_true]
    split <;> rfl

/-- C9 at the text "ab" (stored length 3): `substr(0, 1)` has stored length 2 and is
equal, under `operator==`, to the text "a". -/
theorem C9_substr_witness :
    (String.WF charEnv str_ab ∧ 0 ≤ 1 ∧ 1 ≤ str_ab.length ∧ str_ab.length < String.npos
      ∧ (String.small_str_max_size charEnv < 1 - 0 + 1 → Fits charEnv (1 - 0 + 1)))
    ∧ ((∃ r log, String.substr charEnv str_ab 0 1 = Except.ok (r, log)
          ∧ r.length = 1 - 0 + 1
          ∧ (∀ k, k < 1 - 0 → String.get charEnv r k = String.get charEnv str_ab (0 + k))
          ∧ String.get charEnv r (1 - 0) = Except.ok (some 0))
        ∧ String.substr charEnv str_ab 0 String.npos
            = String.substr charEnv str_ab 0 str_ab.length)
    ∧ String.substr charEnv str_ab 0 1 = Except.ok (str_a, [])
    ∧ String.eq charEnv str_a str_a = Except.ok true :=
  ⟨⟨by decide, by decide, by decide, by decide, by decide⟩,
    C9_substr charEnv str_ab 0 1 (by decide) (by decide) (by decide) (by decide) (by decide),
    by decide, by decide⟩

/-- C10: for a text `s` in a consistent state whose code units from the start index up to
`length()` are determinate, a code unit `c` and a start index, `s.find(c, start)` returns a cursor on
`s` whose position is `k` exactly when `k` is the least index with
`start <= k < s.length()` and `s[k] == c`, and is `npos` exactly when no such index
exists. -/
theorem C10_find_code_unit (E : Env) (s : String) (c start : Nat) (hw : String.WF E s)
    (hdet : ∀ k, start ≤ k → k < s.length → ∃ u, String.get E s k = Except.ok (some u)) :
    ∃ it, String.find E s c start = Except.ok it ∧ it.str = s
      ∧ (∀ k, (it.position_of = k ∧ k ≠ String.npos) ↔
          (start ≤ k ∧ k < s.length ∧ String.get E s k = Except.ok (some c)
            ∧ ∀ j, start ≤ j → j < k → String.get E s j ≠ Except.ok (some c)))
      ∧ (it.position_of = String.npos ↔
          ¬ ∃ k, start ≤ k ∧ k < s.length ∧ String.get E s k = Except.ok (some c)) := by
  simp only [String.length] at hdet ⊢
  have hlt := hw.1
  have hnp := String.npos_eq
  rcases String.findFrom_spec E s c (s.size - start) start
      (fun k h1 h2 => hdet k h1 (by omega)) with ⟨k, hk1, hk2, hk3, hk4, hk5⟩ | ⟨hn1, hn2⟩
  · refine ⟨{ str := s, index := k }, hk5, rfl, ?_, ?_⟩
    · intro k2
      simp only [String.StringIterator.position_of]
      constructor
      · rintro ⟨rfl, _⟩
        exact ⟨hk1, by omega, hk3, hk4⟩
      · rintro ⟨h1, h2, h3, h4⟩
        have hle1 : ¬ (k < k2) := fun h => h4 k hk1 h hk3
        have hle2 : ¬ (k2 < k) := fun h => hk4 k2 h1 h h3
        exact ⟨by omega, by omega⟩
    · simp only [String.StringIterator.position_of]
      constructor
      · intro h; omega
      · intro h; exact absurd ⟨k, hk1, by omega, hk3⟩ h
  · refine ⟨{ str := s, index := String.npos }, hn2, rfl, ?_, ?_⟩
    · intro k2
      simp only [String.StringIterator.position_of]
      constructor
      · rintro ⟨h1, h2⟩; exact absurd h1.symm h2
      · rintro ⟨h1, h2, h3, _⟩
        exact absurd h3 (hn1 k2 h1 (by omega))
    · simp only [String.StringIterator.position_of, true_iff]
      rintro ⟨k, h1, h2, h3⟩
      exact hn1 k h1 (by omega) h3

/-- C10 at the text "abc": the unit 99 from index 0 is found at position 2. -/
theorem C10_find_code_unit_witness :
    (String.WF charEnv str_abc
      ∧ ∀ k, 0 ≤ k → k < str_abc.length →
          ∃ u, String.get charEnv str_abc k = Except.ok (some u))
    ∧ (∃ it, String.find charEnv str_abc 99 0 = Except.ok it ∧ it.str = str_abc
      ∧ (∀ k, (it.position_of = k ∧ k ≠ String.npos) ↔
          (0 ≤ k ∧ k < str_abc.length ∧ String.get charEnv str_abc k = Except.ok (some 99)
            ∧ ∀ j, 0 ≤ j → j < k → String.get charEnv str_abc j ≠ Except.ok (some 99)))
      ∧ (it.position_of = String.npos ↔
          ¬ ∃ k, 0 ≤ k ∧ k < str_abc.length
            ∧ String.get charEnv str_abc k = Except.ok (some 99)))
    ∧ (String.find charEnv str_abc 99 0).map String.StringIterator.position_of = Except.ok 2
    ∧ (String.find charEnv str_abc 120 0).map String.StringIterator.position_of
        = Except.ok String.npos :=
  have hdet : ∀ k, 0 ≤ k → k < str_abc.length →
      ∃ u, String.get charEnv str_abc k = Except.ok (some u) := by
    intro k _ hk
    have h4 : k < 4 := hk
    interval_cases k
    · exact ⟨97, by decide⟩
    · exact ⟨98, by decide⟩
    · exact ⟨99, by decide⟩
    · exact ⟨0, by decide⟩
  ⟨⟨by decide, hdet⟩,
    C10_find_code_unit charEnv str_abc 99 0 (by decide) hdet, by decide, by decide⟩


/-! ## Facts about the searches and comparisons of `String` -/

namespace String

theorem matchFrom_spec (E : Env) (s str : String) (i : Nat) :
    ∀ (n j : Nat),
      (∀ k, j ≤ k → k < j + n → i + k < 2 ^ 64 ∧ ∃ x, get E s (i + k) = Except.ok (some x)) →
      (∀ k, j ≤ k → k < j + n → ∃ y, get E str k = Except.ok (some y)) →
      ∃ b, matchFrom E s str i j n = Except.ok b
        ∧ (b = true ↔ ∀ k, j ≤ k → k < j + n → get E s (i + k) = get E str k) := by
  intro n
  induction n with
  | zero =>
    intro j _ _
    exact ⟨true, rfl, by simp; intro k h1 h2; omega⟩
  | succ n ih =>
    intro j hs hn
    obtain ⟨hlt, x, hx⟩ := hs j (le_refl _) (by omega)
    obtain ⟨y, hy⟩ := hn j (le_refl _) (by omega)
    have hm : (i + j) % sizeMod = i + j := Nat.mod_eq_of_lt (by simpa [sizeMod] using hlt)
    by_cases hxy : x = y
    · subst hxy
      obtain ⟨b, hb, hiff⟩ := ih (j + 1) (fun k h1 h2 => hs k (by omega) (by omega))
        (fun k h1 h2 => hn k (by omega) (by omega))
      refine ⟨b, ?_, ?_⟩
      · simp [matchFrom, hm, hx, hy, hb]
      · rw [hiff]
        constructor
        · intro h k hk1 hk2
          by_cases hkj : k = j
          · subst hkj; rw [hx, hy]
          · exact h k (by omega) (by omega)
        · intro h k hk1 hk2
          exact h k (by omega) (by omega)
    · refine ⟨false, ?_, ?_⟩
      · simp [matchFrom, hm, hx, hy, hxy]
      · simp only [Bool.false_eq_true, false_iff]
        intro h
        have := h j (le_refl _) (by omega)
        rw [hx, hy] at this
        injection this with this
        injection this with this
        exact hxy this

theorem findStrFrom_spec (E : Env) (s str : String) (hstr : 1 ≤ str.size)
    (hlt : str.size < 2 ^ 64) :
    ∀ (n i : Nat),
      (∀ k j, i ≤ k → k < i + n → j < str.size - 1 →
        k + j < 2 ^ 64 ∧ ∃ x, get E s (k + j) = Except.ok (some x)) →
      (∀ j, j < str.size - 1 → ∃ y, get E str j = Except.ok (some y)) →
      (∃ k, i ≤ k ∧ k < i + n
          ∧ (∀ j, j < str.size - 1 → get E s (k + j) = get E str j)
          ∧ (∀ k2, i ≤ k2 → k2 < k →
              ¬ ∀ j, j < str.size - 1 → get E s (k2 + j) = get E str j)
          ∧ findStrFrom E s str i n = Except.ok { str := s, index := k })
      ∨ ((∀ k, i ≤ k → k < i + n →
              ¬ ∀ j, j < str.size - 1 → get E s (k + j) = get E str j)
          ∧ findStrFrom E s str i n = Except.ok { str := s, index := npos }) := by
  have hw : wrap ((str.size : Int) - 1) = str.size - 1 := wrap_sub_one str.size hstr hlt
  intro n
  induction n with
  | zero =>
    intro i _ _
    right
    exact ⟨fun k h1 h2 => by omega, rfl⟩
  | succ n ih =>
    intro i hs hn
    obtain ⟨b, hb, hiff⟩ := matchFrom_spec E s str i (str.size - 1) 0
      (fun k _ h2 => hs i k (le_refl _) (by omega) (by omega))
      (fun k _ h2 => hn k (by omega))
    have hiff2 : b = true ↔ ∀ j, j < str.size - 1 → get E s (i + j) = get E str j := by
      rw [hiff]
      constructor
      · intro h j hj; exact h j (Nat.zero_le _) (by omega)
      · intro h j _ hj; exact h j (by omega)
    cases b with
    | true =>
      left
      refine ⟨i, le_refl _, by omega, hiff2.mp rfl, fun k2 h1 h2 => by omega, ?_⟩
      simp [findStrFrom, hw, hb]
    | false =>
      have hno : ¬ ∀ j, j < str.size - 1 → get E s (i + j) = get E str j := by
        intro h
        have := hiff2.mpr h
        cases this
      have hrec : findStrFrom E s str i (n + 1) = findStrFrom E s str (i + 1) n := by
        simp [findStrFrom, hw, hb]
      rcases ih (i + 1) (fun k j h1 h2 h3 => hs k j (by omega) (by omega) h3) hn with
        ⟨k, hk1, hk2, hk3, hk4, hk5⟩ | ⟨hn1, hn2⟩
      · left
        refine ⟨k, by omega, by omega, hk3, ?_, by rw [hrec, hk5]⟩
        intro k2 h1 h2
        by_cases hki : k2 = i
        · subst hki; exact hno
        · exact hk4 k2 (by omega) h2
      · right
        refine ⟨?_, by rw [hrec, hn2]⟩
        intro k h1 h2
        by_cases hki : k = i
        · subst hki; exact hno
        · exact hn1 k (by omega) (by omega)

end String

/-- C11: for a haystack `h` and a needle `n` in a consistent state, the needle with at
least one content code unit and `n.length() <= h.length()`, the content units of both
determinate, and every start index, `h.find(n, start)` returns a cursor on `h` whose
position is the least index `i >= start` with `i + (n.length()-1) <= h.length()-1` and
`h[i+j] == n[j]` for every `j < n.length()-1`, and is `npos` exactly when no such index
exists. -/
theorem C11_find_substring (E : Env) (h n : String) (start : Nat)
    (hwh : String.WF E h) (hwn : String.WF E n)
    (hn2 : 2 ≤ n.length) (hle : n.length ≤ h.length)
    (hdh : ∀ k, k + 1 < h.length → ∃ x, String.get E h k = Except.ok (some x))
    (hdn : ∀ j, j + 1 < n.length → ∃ y, String.get E n j = Except.ok (some y)) :
    ∃ it, String.find_str E h n start = Except.ok it ∧ it.str = h
      ∧ (∀ k, (it.position_of = k ∧ k ≠ String.npos) ↔
          (start ≤ k ∧ k + (n.length - 1) ≤ h.length - 1
            ∧ (∀ j, j < n.length - 1 → String.get E h (k + j) = String.get E n j)
            ∧ ∀ k2, start ≤ k2 → k2 < k →
                ¬ ∀ j, j < n.length - 1 → String.get E h (k2 + j) = String.get E n j))
      ∧ (it.position_of = String.npos ↔
          ¬ ∃ k, start ≤ k ∧ k + (n.length - 1) ≤ h.length - 1
            ∧ ∀ j, j < n.length - 1 → String.get E h (k + j) = String.get E n j) := by
  simp only [String.length] at hn2 hle hdh hdn ⊢
  have hhl := hwh.1
  have hnl := hwn.1
  have hnp := String.npos_eq
  have hguard : ¬ (h.size < n.size ∨ n.size = 0) := by omega
  have hcount : wrap ((h.size : Int) - n.size + 1) - start = h.size - n.size + 1 - start := by
    have : wrap ((h.size : Int) - n.size + 1) = h.size - n.size + 1 := by unfold wrap; omega
    rw [this]
  have hfind : String.find_str E h n start
      = String.findStrFrom E h n start (h.size - n.size + 1 - start) := by
    simp only [String.find_str, hguard, if_false, hcount]
  rcases String.findStrFrom_spec E h n (by omega) hnl (h.size - n.size + 1 - start) start
      (fun k j h1 h2 h3 => ⟨by omega, hdh (k + j) (by omega)⟩)
      (fun j hj => hdn j (by omega)) with ⟨k, hk1, hk2, hk3, hk4, hk5⟩ | ⟨hn1, hn2x⟩
  · refine ⟨{ str := h, index := k }, by rw [hfind, hk5], rfl, ?_, ?_⟩
    · intro k2
      simp only [String.StringIterator.position_of]
      constructor
      · rintro ⟨rfl, _⟩
        exact ⟨hk1, by omega, hk3, hk4⟩
      · rintro ⟨h1, h2, h3, h4⟩
        have hle1 : ¬ (k < k2) := fun hc => h4 k hk1 hc hk3
        have hle2 : ¬ (k2 < k) := fun hc => hk4 k2 h1 hc h3
        exact ⟨by omega, by omega⟩
    · simp only [String.StringIterator.position_of]
      constructor
      · intro hc; omega
      · intro hc; exact absurd ⟨k, hk1, by omega, hk3⟩ hc
  · refine ⟨{ str := h, index := String.npos }, by rw [hfind, hn2x], rfl, ?_, ?_⟩
    · intro k2
      simp only [String.StringIterator.position_of]
      constructor
      · rintro ⟨h1, h2⟩; exact absurd h1.symm h2
      · rintro ⟨h1, h2, h3, _⟩
        exact absurd h3 (hn1 k2 h1 (by omega))
    · simp only [String.StringIterator.position_of, true_iff]
      rintro ⟨k, h1, h2, h3⟩
      exact hn1 k h1 (by omega) h3

/-- C11 at the haystack "abc": the needle "bc" is found at position 1, the single-unit
needle "a" at position 0, the needle "abc", as long as the haystack, at position 0, and
the needle "x" nowhere. -/
theorem C11_find_substring_witness :
    (String.WF charEnv str_abc ∧ String.WF charEnv str_bc ∧ 2 ≤ str_bc.length
      ∧ str_bc.length ≤ str_abc.length
      ∧ (∀ k, k + 1 < str_abc.length → ∃ x, String.get charEnv str_abc k = Except.ok (some x))
      ∧ (∀ j, j + 1 < str_bc.length → ∃ y, String.get charEnv str_bc j = Except.ok (some y)))
    ∧ (∃ it, String.find_str charEnv str_abc str_bc 0 = Except.ok it ∧ it.str = str_abc
      ∧ (∀ k, (it.position_of = k ∧ k ≠ String.npos) ↔
          (0 ≤ k ∧ k + (str_bc.length - 1) ≤ str_abc.length - 1
            ∧ (∀ j, j < str_bc.length - 1 →
                String.get charEnv str_abc (k + j) = String.get charEnv str_bc j)
            ∧ ∀ k2, 0 ≤ k2 → k2 < k →
                ¬ ∀ j, j < str_bc.length - 1 →
                  String.get charEnv str_abc (k2 + j) = String.get charEnv str_bc j))
      ∧ (it.position_of = String.npos ↔
          ¬ ∃ k, 0 ≤ k ∧ k + (str_bc.length - 1) ≤ str_abc.length - 1
            ∧ ∀ j, j < str_bc.length - 1 →
                String.get charEnv str_abc (k + j) = String.get charEnv str_bc j))
    ∧ (String.find_str charEnv str_abc str_bc 0).map String.StringIterator.position_of
        = Except.ok 1
    ∧ (String.find_str charEnv str_abc str_a 0).map String.StringIterator.position_of
        = Except.ok 0
    ∧ (String.find_str charEnv str_abc str_abc 0).map String.StringIterator.position_of
        = Except.ok 0
    ∧ (String.find_str charEnv str_abc str_x 0).map String.StringIterator.position_of
        = Except.ok String.npos :=
  have hdh : ∀ k, k + 1 < str_abc.length →
      ∃ x, String.get charEnv str_abc k = Except.ok (some x) := by
    intro k hk
    have h4 : k < 3 := by
      have : k + 1 < 4 := hk
      omega
    interval_cases k
    · exact ⟨97, by decide⟩
    · exact ⟨98, by decide⟩
    · exact ⟨99, by decide⟩
  have hdn : ∀ j, j + 1 < str_bc.length →
      ∃ y, String.get charEnv str_bc j = Except.ok (some y) := by
    intro j hj
    have h3 : j < 2 := by
      have : j + 1 < 3 := hj
      omega
    interval_cases j
    · exact ⟨98, by decide⟩
    · exact ⟨99, by decide⟩
  ⟨⟨by decide, by decide, by decide, by decide, hdh, hdn⟩,
    C11_find_substring charEnv str_abc str_bc 0 (by decide) (by decide) (by decide)
      (by decide) hdh hdn,
    by decide, by decide, by decide, by decide⟩

/-- C12 at its failing input: the needle built from the empty literal has stored length
1, which the guard `str.size == 0` lets through; the inner loop then compares nothing
and `find` reports a match at the start index 0 of the haystack "ab" instead of `npos`.
The default-constructed needle (stored length 0) and every needle longer than the
haystack do give `npos`. -/
theorem C12_find_empty_literal :
    String.of_array charEnv lit_empty = Except.ok (str_empty, [])
    ∧ String.WF charEnv str_ab ∧ String.WF charEnv str_empty
    ∧ String.find_str charEnv str_ab str_empty 0
        = Except.ok { str := str_ab, index := 0 }
    ∧ (0 : Nat) ≠ String.npos
    ∧ (∀ (E : Env) (h n : String) (start : Nat), n.length = 0 ∨ h.length < n.length →
        String.find_str E h n start = Except.ok { str := h, index := String.npos }) := by
  refine ⟨by decide, by decide, by decide, by decide, by decide, ?_⟩
  intro E h n start hc
  simp only [String.length] at hc
  have : h.size < n.size ∨ n.size = 0 := by omega
  simp [String.find_str, this]

namespace String

theorem eqFrom_spec (E : Env) (a b : String) :
    ∀ (n i : Nat),
      (∀ k, i ≤ k → k < i + n → ∃ x, get E a k = Except.ok (some x)) →
      (∀ k, i ≤ k → k < i + n → ∃ y, get E b k = Except.ok (some y)) →
      ∃ r, eqFrom E a b i n = Except.ok r
        ∧ (r = true ↔ ∀ k, i ≤ k → k < i + n → get E a k = get E b k) := by
  intro n
  induction n with
  | zero =>
    intro i _ _
    exact ⟨true, rfl, by simp; intro k h1 h2; omega⟩
  | succ n ih =>
    intro i ha hb
    obtain ⟨x, hx⟩ := ha i (le_refl _) (by omega)
    obtain ⟨y, hy⟩ := hb i (le_refl _) (by omega)
    by_cases hxy : x = y
    · subst hxy
      obtain ⟨r, hr, hiff⟩ := ih (i + 1) (fun k h1 h2 => ha k (by omega) (by omega))
        (fun k h1 h2 => hb k (by omega) (by omega))
      refine ⟨r, ?_, ?_⟩
      · simp [eqFrom, hx, hy, hr]
      · rw [hiff]
        constructor
        · intro h k hk1 hk2
          by_cases hki : k = i
          · subst hki; rw [hx, hy]
          · exact h k (by omega) (by omega)
        · intro h k hk1 hk2
          exact h k (by omega) (by omega)
    · refine ⟨false, ?_, ?_⟩
      · simp [eqFrom, hx, hy, hxy]
      · simp only [Bool.false_eq_true, false_iff]
        intro h
        have := h i (le_refl _) (by omega)
        rw [hx, hy] at this
        injection this with this
        injection this with this
        exact hxy this

theorem eq_spec (E : Env) (a b : String) (hsz : a.size = b.size)
    (ha : ∀ k, k < a.size → ∃ x, get E a k = Except.ok (some x))
    (hb : ∀ k, k < a.size → ∃ y, get E b k = Except.ok (some y)) :
    ∃ r, eq E a b = Except.ok r ∧ (r = true ↔ ∀ k, k < a.size → get E a k = get E b k) := by
  obtain ⟨r, hr, hiff⟩ := eqFrom_spec E a b a.size 0 (fun k _ h2 => ha k (by omega))
    (fun k _ h2 => hb k (by omega))
  refine ⟨r, ?_, ?_⟩
  · unfold eq
    rw [if_neg (by simp [hsz]), hr]
  · rw [hiff]
    constructor
    · intro h k hk; exact h k (Nat.zero_le _) (by omega)
    · intro h k _ hk; exact h k (by omega)

theorem freeIfLarge_spec (E : Env) (s : String) (hw : WF E s) :
    freeIfLarge E s
      = Except.ok ((), if small_str_max_size E < s.size then [MemEvent.free] else []) := by
  obtain ⟨_, _, hin, _, hh⟩ := hw
  rcases s with ⟨d, n⟩
  cases d with
  | small cells =>
    simp only [inline, is_small] at hin
    have h : n ≤ small_str_max_size E := of_decide_eq_true hin.symm
    have h2 : ¬ (small_str_max_size E < n) := by omega
    simp [freeIfLarge, is_small, h, h2, pure, Mem.pure]
  | large p =>
    simp only [inline, is_small] at hin
    have h : ¬ (n ≤ small_str_max_size E) := of_decide_eq_false hin.symm
    have h2 : small_str_max_size E < n := by omega
    cases p with
    | none => simp [inline, uses_heap] at hh
    | some b =>
      simp [freeIfLarge, is_small, h, h2, readLarge, Mem.lift, deallocate, bind, Mem.bind]

theorem substr_spec_below (E : Env) (s : String) (b e : Nat) (hw : WF E s) (hbe : b ≤ e)
    (hes : e ≤ s.size) (he : e < npos)
    (hf : small_str_max_size E < e - b + 1 → Fits E (e - b + 1)) :
    ∃ r, substr E s b e = Except.ok (r, ctorLog E (e - b + 1))
      ∧ WF E r ∧ r.size = e - b + 1
      ∧ (∀ k, k < e - b → get E r k = get E s (b + k))
      ∧ get E r (e - b) = Except.ok (some 0) := by
  rw [npos_eq] at he
  have hne : e ≠ npos := by rw [npos_eq]; omega
  have hw1 : wrap ((e : Int) - b + 1) = e - b + 1 := by unfold wrap; omega
  have hw2 : wrap ((e : Int) - b) = e - b := by unfold wrap; omega
  have hsb := hw.2.1
  obtain ⟨r0, e0, hwr, hz0, ht0⟩ := mk_sized_spec E (e - b + 1) (by omega) hf
  obtain ⟨b2, h1, h2, h3⟩ := forRange_copyInto E (fun i => Ptr.read (some s.buf) (b + i))
    (fun i => s.buf[b + i]?.getD none) (e - b) 0 r0 hwr (by have := hwr.2.1; omega)
    (fun i _ hi => read_getD s.buf (b + i) (by omega))
  have hwr2 := wf_withBuf E r0 hwr b2 h2
  refine ⟨r0.withBuf b2, ?_, hwr2, by rw [size_withBuf, hz0], ?_, ?_⟩
  · simp only [substr, hne, if_false, ptrAt_eq E s hw, Mem.lift, bind, Mem.bind, substr_ptr,
      isNull, Option.isNone_some, Bool.false_and]
    simp only [Bool.false_eq_true, if_false]
    rw [hw1, hw2, e0]
    simp only [h1]
    simp
  · intro k hk
    rw [get_getD E s hw (b + k) (by omega), get_ok_iff E _ hwr2, buf_withBuf, h3 k]
    have : (0 ≤ k ∧ k < 0 + (e - b)) := by omega
    rw [if_pos this]
  · rw [get_ok_iff E _ hwr2, buf_withBuf, h3 (e - b)]
    have : ¬ (0 ≤ e - b ∧ e - b < 0 + (e - b)) := by omega
    rw [if_neg this]
    have := ht0 (by omega)
    simpa using this

/-- The comparison of the slice `[b, b + o.size - 1)` of `s`, terminated, with `o`: the
common part of `begin_with` and `end_with`. -/
theorem slice_eq_spec (E : Env) (s o : String) (b : Nat) (hws : WF E s)
    (ho : 1 ≤ o.size) (hb : b + o.size ≤ s.size) (hto : Terminated E o)
    (hds : ∀ k, k + 1 < s.size → ∃ x, get E s k = Except.ok (some x))
    (hdo : ∀ j, j + 1 < o.size → ∃ y, get E o j = Except.ok (some y))
    (hf : small_str_max_size E < o.size → Fits E o.size) :
    ∃ r, (do
        let t ← substr E s b (b + o.size - 1)
        let r ← Mem.lift (eq E t o)
        destroy E t
        pure r : Mem Bool)
        = Except.ok (r, ctorLog E o.size
            ++ (if small_str_max_size E < o.size then [MemEvent.free] else []))
      ∧ (r = true ↔ ∀ j, j < o.size - 1 → get E s (b + j) = get E o j) := by
  have hsl := hws.1
  have hlen : b + o.size - 1 - b + 1 = o.size := by omega
  obtain ⟨t, e1, hwt, hzt, hct, htt⟩ := substr_spec_below E s b (b + o.size - 1) hws (by omega)
    (by omega) (by rw [npos_eq]; omega) (by rw [hlen]; exact hf)
  rw [hlen] at e1 hzt
  have hlen2 : b + o.size - 1 - b = o.size - 1 := by omega
  rw [hlen2] at hct htt
  have hterm := hto ho
  have hdt : ∀ k, k < t.size → ∃ x, get E t k = Except.ok (some x) := by
    intro k hk
    by_cases hk2 : k < o.size - 1
    · rw [hct k hk2]; exact hds (b + k) (by omega)
    · have : k = o.size - 1 := by omega
      subst this
      exact ⟨0, htt⟩
  have hdo2 : ∀ k, k < t.size → ∃ y, get E o k = Except.ok (some y) := by
    intro k hk
    by_cases hk2 : k < o.size - 1
    · exact hdo k (by omega)
    · have : k = o.size - 1 := by omega
      subst this
      exact ⟨0, hterm⟩
  obtain ⟨r, hr, hiff⟩ := eq_spec E t o hzt hdt hdo2
  refine ⟨r, ?_, ?_⟩
  · simp only [bind, Mem.bind, e1, hr, Mem.lift, destroy, freeIfLarge_spec E t hwt, hzt, pure,
      Mem.pure]
    simp
  · rw [hiff, hzt]
    constructor
    · intro h j hj
      rw [← hct j hj]
      exact h j (by omega)
    · intro h k hk
      by_cases hk2 : k < o.size - 1
      · rw [hct k hk2]; exact h k hk2
      · have : k = o.size - 1 := by omega
        subst this
        rw [htt, hterm]

end String

/-- C13: for texts `s` and `o` in a consistent state with determinate content units, `o`
zero-terminated with `o.length() >= 1` (the allocation of a long temporary succeeding),
`s.begin_with(o)` is true if and only if `o.length() <= s.length()` and `s[j] == o[j]` for
every `j < o.length()-1`; `s.end_with(o)` is true if and only if
`o.length() <= s.length()` and `s[s.length() - o.length() + j] == o[j]` for every
`j < o.length()-1`; both return false whenever `o.length() > s.length()`. -/
theorem C13_begin_with_end_with (E : Env) (s o : String)
    (hws : String.WF E s) (hwo : String.WF E o) (ho : 1 ≤ o.length)
    (hto : String.Terminated E o)
    (hds : ∀ k, k + 1 < s.length → ∃ x, String.get E s k = Except.ok (some x))
    (hdo : ∀ j, j + 1 < o.length → ∃ y, String.get E o j = Except.ok (some y))
    (hf : String.small_str_max_size E < o.length → o.length ≤ s.length → Fits E o.length) :
    (∃ r log, String.begin_with E s o = Except.ok (r, log)
        ∧ (r = true ↔ (o.length ≤ s.length
            ∧ ∀ j, j < o.length - 1 → String.get E s j = String.get E o j)))
    ∧ (∃ r log, String.end_with E s o = Except.ok (r, log)
        ∧ (r = true ↔ (o.length ≤ s.length
            ∧ ∀ j, j < o.length - 1 →
                String.get E s (s.length - o.length + j) = String.get E o j)))
    ∧ (o.length > s.length →
        String.begin_with E s o = Except.ok (false, [])
        ∧ String.end_with E s o = Except.ok (false, [])) := by
  simp only [String.length] at ho hds hdo hf ⊢
  have hsl := hws.1
  have hol := hwo.1
  by_cases hgt : o.size > s.size
  · have hb : String.begin_with E s o = Except.ok (false, []) := by
      simp only [String.begin_with, hgt, if_true]; rfl
    have he : String.end_with E s o = Except.ok (false, []) := by
      simp only [String.end_with, hgt, if_true]; rfl
    refine ⟨⟨false, [], hb, ?_⟩, ⟨false, [], he, ?_⟩, fun _ => ⟨hb, he⟩⟩
    · simp only [Bool.false_eq_true, false_iff]; intro h; omega
    · simp only [Bool.false_eq_true, false_iff]; intro h; omega
  · have hle : o.size ≤ s.size := by omega
    have hfit := fun h => hf h hle
    have hw1 : wrap ((o.size : Int) - 1) = 0 + o.size - 1 := by unfold wrap; omega
    have hw2 : wrap ((s.size : Int) - o.size) = s.size - o.size := by unfold wrap; omega
    have hw3 : wrap ((s.size : Int) - 1) = s.size - o.size + o.size - 1 := by
      unfold wrap; omega
    obtain ⟨r1, e1, hr1⟩ := String.slice_eq_spec E s o 0 hws ho (by omega) hto hds hdo hfit
    obtain ⟨r2, e2, hr2⟩ := String.slice_eq_spec E s o (s.size - o.size) hws ho (by omega)
      hto hds hdo hfit
    refine ⟨⟨r1, String.ctorLog E o.size
        ++ (if String.small_str_max_size E < o.size then [MemEvent.free] else []), ?_, ?_⟩,
      ⟨r2, String.ctorLog E o.size
        ++ (if String.small_str_max_size E < o.size then [MemEvent.free] else []), ?_, ?_⟩,
      fun h => absurd h hgt⟩
    · simp only [String.begin_with, hgt, if_false, hw1]
      exact e1
    · rw [hr1]
      constructor
      · intro h; exact ⟨hle, fun j hj => by simpa using h j hj⟩
      · intro h j hj; simpa using h.2 j hj
    · simp only [String.end_with, hgt, if_false, hw2, hw3]
      exact e2
    · rw [hr2]
      constructor
      · intro h; exact ⟨hle, h⟩
      · intro h; exact h.2

/-- C13 at the text "abc": it begins with "ab" and ends with "bc", it does not end with
"ab", and a longer argument gives false. -/
theorem C13_begin_with_end_with_witness :
    (String.WF charEnv str_abc ∧ String.WF charEnv str_ab ∧ 1 ≤ str_ab.length
      ∧ String.Terminated charEnv str_ab
      ∧ (∀ k, k + 1 < str_abc.length → ∃ x, String.get charEnv str_abc k = Except.ok (some x))
      ∧ (∀ j, j + 1 < str_ab.length → ∃ y, String.get charEnv str_ab j = Except.ok (some y))
      ∧ (String.small_str_max_size charEnv < str_ab.length →
          str_ab.length ≤ str_abc.length → Fits charEnv str_ab.length))
    ∧ ((∃ r log, String.begin_with charEnv str_abc str_ab = Except.ok (r, log)
        ∧ (r = true ↔ (str_ab.length ≤ str_abc.length
            ∧ ∀ j, j < str_ab.length - 1 →
                String.get charEnv str_abc j = String.get charEnv str_ab j)))
      ∧ (∃ r log, String.end_with charEnv str_abc str_ab = Except.ok (r, log)
        ∧ (r = true ↔ (str_ab.length ≤ str_abc.length
            ∧ ∀ j, j < str_ab.length - 1 →
                String.get charEnv str_abc (str_abc.length - str_ab.length + j)
                  = String.get charEnv str_ab j)))
      ∧ (str_ab.length > str_abc.length →
        String.begin_with charEnv str_abc str_ab = Except.ok (false, [])
        ∧ String.end_with charEnv str_abc str_ab = Except.ok (false, [])))
    ∧ String.begin_with charEnv str_abc str_ab = Except.ok (true, [])
    ∧ String.end_with charEnv str_abc str_bc = Except.ok (true, [])
    ∧ String.end_with charEnv str_abc str_ab = Except.ok (false, [])
    ∧ String.begin_with charEnv str_ab str_abc = Except.ok (false, []) :=
  have hds : ∀ k, k + 1 < str_abc.length →
      ∃ x, String.get charEnv str_abc k = Except.ok (some x) := by
    intro k hk
    have h4 : k < 3 := by
      have : k + 1 < 4 := hk
      omega
    interval_cases k
    · exact ⟨97, by decide⟩
    · exact ⟨98, by decide⟩
    · exact ⟨99, by decide⟩
  have hdo : ∀ j, j + 1 < str_ab.length →
      ∃ y, String.get charEnv str_ab j = Except.ok (some y) := by
    intro j hj
    have h3 : j < 2 := by
      have : j + 1 < 3 := hj
      omega
    interval_cases j
    · exact ⟨97, by decide⟩
    · exact ⟨98, by decide⟩
  ⟨⟨by decide, by decide, by decide, by decide, hds, hdo, by decide⟩,
    C13_begin_with_end_with charEnv str_abc str_ab (by decide) (by decide) (by decide)
      (by decide) hds hdo (by decide),
    by decide, by decide, by decide, by decide⟩

namespace String

theorem append_spec (E : Env) (s o : String) (hws : WF E s) (hwo : WF E o)
    (hs : 1 ≤ s.size) (ho : 1 ≤ o.size) (hsum : s.size + o.size - 1 < 2 ^ 64)
    (hf : small_str_max_size E < s.size + o.size - 1 → Fits E (s.size + o.size - 1)) :
    ∃ r, append E s o = Except.ok (r, ctorLog E (s.size + o.size - 1)
          ++ (if small_str_max_size E < s.size then [MemEvent.free] else []))
      ∧ WF E r ∧ r.size = s.size + o.size - 1
      ∧ (∀ i, i + 1 < s.size → get E r i = get E s i)
      ∧ (∀ j, j + 1 < o.size → get E r (s.size - 1 + j) = get E o j)
      ∧ get E r (s.size + o.size - 1 - 1) = Except.ok (some 0) := by
  have hw1 : wrap ((s.size : Int) - 1) = s.size - 1 := by unfold wrap; omega
  have hw2 : wrap ((s.size : Int) + o.size - 1) = s.size + o.size - 1 := by unfold wrap; omega
  have hsb := hws.2.1
  have hob := hwo.2.1
  obtain ⟨r1, e1, hwr1, hz1, hc1, _⟩ := resize_spec E s (s.size + o.size - 1) hws (by omega)
    hsum hf
  have hr1b := hwr1.2.1
  have hcount : r1.size - (s.size - 1) = o.size := by omega
  obtain ⟨b2, g1, g2, g3⟩ := forRange_copyInto E
    (fun i => get E o (wrap ((i : Int) - ((s.size - 1 : Nat) : Int))))
    (fun i => o.buf[i - (s.size - 1)]?.getD none) o.size (s.size - 1) r1 hwr1 (by omega)
    (by
      intro i hi1 hi2
      have hwi : wrap ((i : Int) - ((s.size - 1 : Nat) : Int)) = i - (s.size - 1) := by
        unfold wrap; omega
      beta_reduce
      rw [hwi]
      exact get_getD E o hwo _ (by omega))
  have hwr2 := wf_withBuf E r1 hwr1 b2 g2
  have hw3 : wrap (((r1.withBuf b2).size : Int) - 1) = s.size + o.size - 1 - 1 := by
    rw [size_withBuf, hz1]; unfold wrap; omega
  have hset := set_eq E (r1.withBuf b2) hwr2 (s.size + o.size - 1 - 1) (some 0)
    (by rw [buf_withBuf, g2]; omega)
  rw [buf_withBuf, withBuf_withBuf] at hset
  have hwr3 := wf_withBuf E r1 hwr1 (b2.set (s.size + o.size - 1 - 1) (some 0))
    (by rw [List.length_set, g2])
  refine ⟨r1.withBuf (b2.set (s.size + o.size - 1 - 1) (some 0)), ?_, hwr3,
    by rw [size_withBuf, hz1], ?_, ?_, ?_⟩
  · simp only [append, hw1, hw2, e1, bind, Mem.bind, Mem.lift, hcount, g1, hw3, hset]
    simp
  · intro i hi
    have hne : ¬ (s.size + o.size - 1 - 1 = i) := by omega
    have hnr : ¬ (s.size - 1 ≤ i ∧ i < s.size - 1 + o.size) := by omega
    have hib : i < r1.buf.length := by omega
    rw [← hc1 i (by omega) (by omega), get_getD E r1 hwr1 i hib, get_ok_iff E _ hwr3,
      buf_withBuf, List.getElem?_set, if_neg hne, g3 i, if_neg hnr,
      List.getElem?_eq_getElem hib]
    rfl
  · intro j hj
    rw [get_getD E o hwo j (by omega), get_ok_iff E _ hwr3, buf_withBuf, List.getElem?_set]
    have hne : ¬ (s.size + o.size - 1 - 1 = s.size - 1 + j) := by omega
    rw [if_neg hne, g3 (s.size - 1 + j)]
    have hr : (s.size - 1 ≤ s.size - 1 + j ∧ s.size - 1 + j < s.size - 1 + o.size) := by omega
    rw [if_pos hr]
    simp
  · rw [get_ok_iff E _ hwr3, buf_withBuf, List.getElem?_set]
    have : s.size + o.size - 1 - 1 < b2.length := by rw [g2]; omega
    simp [this]

end String

/-- C19: for texts `a` and `b` in a consistent state with `a.length() >= 1`,
`b.length() >= 1`, `b` zero-terminated, determinate content units (`b` is a value of its
own, and the allocation of a long result succeeds), the value of `a` after `a += b` and
`a + b` computed from the original `a` have the stored length
`a.length() + b.length() - 1`, hold the same code unit at every index, and are equal
under `operator==`. -/
theorem C19_append_agrees_with_add (E : Env) (a b : String)
    (hwa : String.WF E a) (hwb : String.WF E b) (ha : 1 ≤ a.length) (hb : 1 ≤ b.length)
    (htb : String.Terminated E b)
    (hda : ∀ k, k + 1 < a.length → ∃ x, String.get E a k = Except.ok (some x))
    (hdb : ∀ j, j + 1 < b.length → ∃ y, String.get E b j = Except.ok (some y))
    (hsum : a.length + b.length - 1 < 2 ^ 64)
    (hf : String.small_str_max_size E < a.length + b.length - 1 →
      Fits E (a.length + b.length - 1)) :
    ∃ r1 l1 r2 l2, String.append E a b = Except.ok (r1, l1)
      ∧ String.add E a b = Except.ok (r2, l2)
      ∧ r1.length = a.length + b.length - 1
      ∧ r2.length = a.length + b.length - 1
      ∧ (∀ i, i < a.length + b.length - 1 → String.get E r1 i = String.get E r2 i)
      ∧ String.eq E r1 r2 = Except.ok true := by
  simp only [String.length] at ha hb hda hdb hsum hf ⊢
  obtain ⟨r1, e1, _, hz1, hc1, hd1, ht1⟩ := String.append_spec E a b hwa hwb ha hb hsum hf
  obtain ⟨r2, e2, _, hz2, hc2, hd2⟩ := String.add_spec E a b hwa hwb ha hsum hf
  have hterm := htb hb
  -- the units of `a + b`, index by index
  have hval : ∀ i, i < a.size + b.size - 1 →
      String.get E r1 i = String.get E r2 i ∧ ∃ x, String.get E r2 i = Except.ok (some x) := by
    intro i hi
    by_cases hia : i + 1 < a.size
    · rw [hc1 i hia, hc2 i hia]
      exact ⟨rfl, hda i hia⟩
    · obtain ⟨j, rfl⟩ : ∃ j, i = a.size - 1 + j := ⟨i - (a.size - 1), by omega⟩
      rw [hd2 j (by omega)]
      by_cases hjb : j + 1 < b.size
      · rw [hd1 j hjb]
        exact ⟨rfl, hdb j hjb⟩
      · have hj : j = b.size - 1 := by omega
        have hidx : a.size - 1 + j = a.size + b.size - 1 - 1 := by omega
        rw [hidx, ht1, hj, hterm]
        exact ⟨rfl, 0, rfl⟩
  obtain ⟨r, hr, hiff⟩ := String.eq_spec E r1 r2 (by rw [hz1, hz2])
    (fun k hk => by
      rw [hz1] at hk
      obtain ⟨h1, x, hx⟩ := hval k hk
      exact ⟨x, by rw [h1, hx]⟩)
    (fun k hk => by
      rw [hz1] at hk
      exact (hval k hk).2)
  have hrt : r = true := hiff.mpr (fun k hk => (hval k (by rw [hz1] at hk; exact hk)).1)
  rw [hrt] at hr
  exact ⟨r1, _, r2, _, e1, e2, hz1, hz2, fun i hi => (hval i hi).1, hr⟩

/-- C19 at "abc" += "abcdefgh", which moves the text from the inline array to the heap. -/
theorem C19_append_agrees_with_add_witness :
    (String.WF charEnv str_abc ∧ String.WF charEnv str_8 ∧ 1 ≤ str_abc.length
      ∧ 1 ≤ str_8.length ∧ String.Terminated charEnv str_8
      ∧ (∀ k, k + 1 < str_abc.length → ∃ x, String.get charEnv str_abc k = Except.ok (some x))
      ∧ (∀ j, j + 1 < str_8.length → ∃ y, String.get charEnv str_8 j = Except.ok (some y))
      ∧ str_abc.length + str_8.length - 1 < 2 ^ 64
      ∧ (String.small_str_max_size charEnv < str_abc.length + str_8.length - 1 →
          Fits charEnv (str_abc.length + str_8.length - 1)))
    ∧ ∃ r1 l1 r2 l2, String.append charEnv str_abc str_8 = Except.ok (r1, l1)
      ∧ String.add charEnv str_abc str_8 = Except.ok (r2, l2)
      ∧ r1.length = str_abc.length + str_8.length - 1
      ∧ r2.length = str_abc.length + str_8.length - 1
      ∧ (∀ i, i < str_abc.length + str_8.length - 1 →
          String.get charEnv r1 i = String.get charEnv r2 i)
      ∧ String.eq charEnv r1 r2 = Except.ok true :=
  have hda : ∀ k, k + 1 < str_abc.length →
      ∃ x, String.get charEnv str_abc k = Except.ok (some x) := by
    intro k hk
    have h4 : k < 3 := by
      have : k + 1 < 4 := hk
      omega
    interval_cases k
    · exact ⟨97, by decide⟩
    · exact ⟨98, by decide⟩
    · exact ⟨99, by decide⟩
  have hdb : ∀ j, j + 1 < str_8.length →
      ∃ y, String.get charEnv str_8 j = Except.ok (some y) := by
    intro j hj
    have h9 : j < 8 := by
      have : j + 1 < 9 := hj
      omega
    interval_cases j
    · exact ⟨97, by decide⟩
    · exact ⟨98, by decide⟩
    · exact ⟨99, by decide⟩
    · exact ⟨100, by decide⟩
    · exact ⟨101, by decide⟩
    · exact ⟨102, by decide⟩
    · exact ⟨103, by decide⟩
    · exact ⟨104, by decide⟩
  ⟨⟨by decide, by decide, by decide, by decide, by decide, hda, hdb, by decide, by decide⟩,
    C19_append_agrees_with_add charEnv str_abc str_8 (by decide) (by decide) (by decide)
      (by decide) (by decide) hda hdb (by decide) (by decide)⟩

/-- C20 at its failing input: after the copy assignment `a = b` with `a` the text "x"
and `b` the text "abc", `a.length()` is still 2, not `b.length() == 4`, `a` holds the
units 97, 98 of `b` without terminator, and `a == b` is false. -/
theorem C20_copy_assignment_keeps_length :
    String.WF charEnv str_x ∧ String.WF charEnv str_abc
    ∧ String.assign charEnv str_x str_abc
        = Except.ok (inlineText [97, 98, 0, 0, 0, 0, 0, 0] 2, [])
    ∧ (inlineText [97, 98, 0, 0, 0, 0, 0, 0] 2).length = 2
    ∧ str_abc.length = 4
    ∧ String.eq charEnv (inlineText [97, 98, 0, 0, 0, 0, 0, 0] 2) str_abc = Except.ok false := by
  decide

/-! ## The claims about the invariants of `Vector` -/

/-- C14 at its failing input: `resize(4)` on the default-constructed vector, and as well
`Vector(SizeType)` called with the size 4, leaves `size() == 4` over a buffer of
`capacity() == 3` cells, so `size() <= capacity()` fails; in general one call of `new_length(n)` on the
empty vector grows the capacity 2 -> 3 once and stops, whatever `n >= 3` is. -/
theorem C14_size_exceeds_capacity :
    (Vector.of_size intEnv 4 : Mem (Vector Nat))
        = Except.ok ({ data_ := some [none, none, none], size_ := 4, capacity_ := 3 },
            [MemEvent.alloc 8 true, MemEvent.alloc 12 true, MemEvent.free])
    ∧ (Vector.resize intEnv (Vector.init : Vector Nat) 4)
        = Except.ok ({ data_ := some [none, none, none], size_ := 4, capacity_ := 3 },
            [MemEvent.alloc 8 true, MemEvent.alloc 12 true, MemEvent.free])
    ∧ ¬ (({ data_ := some [none, none, none], size_ := 4, capacity_ := 3 } : Vector Nat).size
          ≤ ({ data_ := some [none, none, none], size_ := 4, capacity_ := 3 } : Vector Nat).capacity)
    ∧ (∀ (E : Env) (n : Nat), Fits E 2 → Fits E 3 → 3 ≤ n →
        (Vector.of_size E n : Mem (Vector Nat))
          = Except.ok ({ data_ := some [none, none, none], size_ := n, capacity_ := 3 },
              [MemEvent.alloc (2 * E.sizeofT) true, MemEvent.alloc (3 * E.sizeofT) true,
                MemEvent.free])) := by
  refine ⟨by decide, by decide, by decide, ?_⟩
  intro E n h2 h3 hn
  have hl : ¬ (n < 2) := by omega
  have hg : ¬ ((2 + 2 / 2) % sizeMod > Vector.max_size) := by
    simp [sizeMod, Vector.max_size]
  have hm : (2 + 2 / 2) % sizeMod = 3 := by simp [sizeMod]
  simp only [Vector.of_size, Vector.new_length, Vector.init, if_true, bind, Mem.bind,
    allocate_of_fits E 2 h2, pure, Mem.pure, hl, if_false, hm]
  simp [Vector.max_size, sizeMod, allocate_of_fits E 3 h3, Mem.lift, deallocate, bind, Mem.bind,
    pure, Mem.pure, List.replicate]

set_option maxRecDepth 100000 in
/-- C15 at its failing input: with an allocator that returns the null handle for large
requests, alternating `resize(capacity())` and `resize(0)` 108 times on a
`Vector<char>` reaches the capacity 16903601652849770328; the next growth computes
`capacity_ + capacity_ / 2` in `SizeType`, where it wraps to 6908658405565103876, a value
smaller than before and not the largest `SizeType` value.  The comparison with
`max_size()` is made on the wrapped sum, so the clamping branch is never taken. -/
theorem C15_growth_wraps_around :
    (do let v0 ← Vector.resize tightEnv (Vector.init : Vector Nat) 0
        Vector.growRounds tightEnv 108 v0 : Mem (Vector Nat)).value
      = Except.ok { data_ := none, size_ := 0, capacity_ := 16903601652849770328 }
    ∧ (Vector.resize tightEnv
        ({ data_ := none, size_ := 0, capacity_ := 16903601652849770328 } : Vector Nat)
        16903601652849770328).value
      = Except.ok { data_ := none, size_ := 16903601652849770328,
                    capacity_ := 6908658405565103876 }
    ∧ 16903601652849770328 + 16903601652849770328 / 2 > Vector.max_size
    ∧ (6908658405565103876 : Nat) ≠ Vector.max_size
    ∧ (6908658405565103876 : Nat) < 16903601652849770328
    ∧ (∀ c : Nat, ¬ ((c + c / 2) % sizeMod > Vector.max_size)) := by
  refine ⟨by decide, by decide, by decide, by decide, by decide, ?_⟩
  intro c
  simp only [sizeMod, Vector.max_size]
  omega

/-- C16 at its failing input: the vector constructed from the four arguments 1, 2, 3, 4
gets a buffer of 3 cells from the single growth step of `new_length(4)`, and the write of
the fourth element is outside it; so it is for every list of four or more arguments,
while three arguments still fit. -/
theorem C16_four_arguments_overflow :
    (Vector.of_values intEnv [1, 2, 3, 4] : Mem (Vector Nat)) = Except.error Fault.outOfBounds
    ∧ (Vector.new_length intEnv false (Vector.init : Vector Nat) [1, 2, 3, 4].length).value
        = Except.ok { data_ := some [none, none, none], size_ := 4, capacity_ := 3 }
    ∧ Vector.setArg [1, 2, 3, 4] 3
        ({ data_ := some [some 1, some 2, some 3], size_ := 4, capacity_ := 3 } : Vector Nat)
        = Except.error Fault.outOfBounds
    ∧ (Vector.of_values intEnv [1, 2, 3] : Mem (Vector Nat)).value
        = Except.ok { data_ := some [some 1, some 2, some 3], size_ := 3, capacity_ := 3 }
    ∧ (∀ (E : Env) (x0 x1 x2 x3 : Nat) (rest : List Nat), Fits E 2 → Fits E 3 →
        (Vector.of_values E (x0 :: x1 :: x2 :: x3 :: rest) : Mem (Vector Nat))
          = Except.error Fault.outOfBounds) := by
  refine ⟨by decide, by decide, by decide, by decide, ?_⟩
  intro E x0 x1 x2 x3 rest h2 h3
  have hl : ¬ (rest.length + 1 + 1 + 1 + 1 < 2) := by omega
  have hm : (2 + 2 / 2) % sizeMod = 3 := by simp [sizeMod]
  simp only [Vector.of_values, Vector.new_length, Vector.init, if_true, bind, Mem.bind,
    allocate_of_fits E 2 h2, pure, Mem.pure, List.length_cons, hl, if_false, hm]
  simp [Vector.max_size, sizeMod, allocate_of_fits E 3 h3, Mem.lift, deallocate, bind, Mem.bind,
    pure, Mem.pure, List.replicate, forRange, Vector.setArg, Vector.store, Ptr.write, Buf.write,
    Except.bind, Except.pure]

/-- C18 at its failing input: move construction from a vector of three elements gives a
vector with the source's size and region but `capacity_` still 0, its default
initializer, so `capacity == 0` does not imply a null region; the source keeps its
capacity with a null region, and its `delete_if_has_data()` has deallocated the region
the new vector holds.  The same happens for every source with elements. -/
theorem C18_move_leaves_capacity_zero :
    (Vector.pushAll intEnv (Vector.init : Vector Nat) [1, 2, 3]).value
        = Except.ok { data_ := some [some 1, some 2, some 3, none], size_ := 3, capacity_ := 4 }
    ∧ Vector.move ({ data_ := some [some 1, some 2, some 3, none], size_ := 3,
                     capacity_ := 4 } : Vector Nat)
        = Except.ok (({ data_ := some [some 1, some 2, some 3, none], size_ := 3,
                        capacity_ := 0 },
                      { data_ := none, size_ := 0, capacity_ := 4 }), [MemEvent.free])
    ∧ (∀ (v : Vector Nat) (b : Buf Nat), v.data_ = some b → v.size_ ≠ 0 →
        Vector.move v
          = Except.ok (({ data_ := some b, size_ := v.size_, capacity_ := 0 },
                        { data_ := none, size_ := 0, capacity_ := v.capacity_ }),
              [MemEvent.free])) := by
  refine ⟨by decide, by decide, ?_⟩
  intro v b hb hz
  simp [Vector.move, Vector.delete_if_has_data, hb, hz, deallocate, bind, Mem.bind, pure,
    Mem.pure]

namespace Vector

variable {α : Type}

theorem forRange_moveCell_null (b : Buf α) (v : Vector α) (n : Nat) (hv : v.data_ = none)
    (hb : 0 < b.length) :
    forRange (moveCell (some b)) 0 (n + 1) v = Except.error Fault.nullDeref := by
  have hstep : moveCell (some b) 0 v = Except.error Fault.nullDeref := by
    simp [moveCell, Ptr.read, Buf.read_of_lt b 0 hb, store, hv, Ptr.write, bind, Except.bind]
  simp [forRange, hstep]

theorem new_length_alloc_fails (E : Env) (v : Vector α) (b : Buf α) (l : Nat)
    (hb : v.data_ = some b) (hbl : b.length = v.capacity_) (hc2 : 2 ≤ v.capacity_)
    (hlt : v.capacity_ + v.capacity_ / 2 < 2 ^ 64)
    (hfail : E.allocOk ((v.capacity_ + v.capacity_ / 2) * E.sizeofT % sizeMod) = false)
    (hl : v.capacity_ ≤ l) :
    (min v.size_ l = 0 → new_length E true v l
        = Except.ok ({ data_ := none, size_ := l, capacity_ := v.capacity_ + v.capacity_ / 2 },
            [MemEvent.alloc ((v.capacity_ + v.capacity_ / 2) * E.sizeofT % sizeMod) false,
              MemEvent.free]))
    ∧ (0 < min v.size_ l → new_length E true v l = Except.error Fault.nullDeref) := by
  have h0 : v.capacity_ ≠ 0 := by omega
  have hl2 : ¬ (l < v.capacity_) := by omega
  have hmod : (v.capacity_ + v.capacity_ / 2) % sizeMod = v.capacity_ + v.capacity_ / 2 :=
    Nat.mod_eq_of_lt (by simpa [sizeMod] using hlt)
  have hng : ¬ (v.capacity_ + v.capacity_ / 2 > max_size) := by
    simp only [max_size, sizeMod]; omega
  have halloc : (allocate E (v.capacity_ + v.capacity_ / 2) : Mem (Ptr α))
      = Except.ok (none,
          [MemEvent.alloc ((v.capacity_ + v.capacity_ / 2) * E.sizeofT % sizeMod) false]) := by
    simp [allocate, hfail]
  constructor
  · intro hmin
    simp [new_length, h0, hl2, hmod, hng, bind, Mem.bind, pure, Mem.pure, halloc, hb, Mem.lift,
      hmin, forRange, deallocate]
  · intro hmin
    obtain ⟨k, hk⟩ : ∃ k, min v.size_ l = k + 1 := ⟨min v.size_ l - 1, by omega⟩
    have hloop := forRange_moveCell_null b
      { v with data_ := none, capacity_ := v.capacity_ + v.capacity_ / 2 } k rfl (by omega)
    simp [new_length, h0, hl2, hmod, hng, bind, Mem.bind, pure, Mem.pure, halloc, hb, Mem.lift,
      hk, hloop]

end Vector

/-- C17 fails: with an allocator that returns the null handle for the grown buffer,
`push_back(2)` on the vector holding 1 writes through the null handle (undefined
behaviour, not a reported failure), and `resize(5)` on the default-constructed vector
completes with the region handle null, `capacity() == 3` and `size() == 5`, so the
vector is not what it was before the call. -/
theorem C17_counterexample :
    (Vector.pushAll smallHeapEnv (Vector.init : Vector Nat) [1]).value
        = Except.ok { data_ := some [some 1, none], size_ := 1, capacity_ := 2 }
    ∧ smallHeapEnv.allocOk (3 * smallHeapEnv.sizeofT) = false
    ∧ Vector.push_back smallHeapEnv
        ({ data_ := some [some 1, none], size_ := 1, capacity_ := 2 } : Vector Nat) 2
        = Except.error Fault.nullDeref
    ∧ Vector.resize smallHeapEnv (Vector.init : Vector Nat) 5
        = Except.ok ({ data_ := none, size_ := 5, capacity_ := 3 },
            [MemEvent.alloc 8 true, MemEvent.alloc 12 false, MemEvent.free])
    ∧ ¬ ∃ log, Vector.resize smallHeapEnv (Vector.init : Vector Nat) 5
        = Except.ok ((Vector.init : Vector Nat), log) := by
  have h : Vector.resize smallHeapEnv (Vector.init : Vector Nat) 5
      = Except.ok ({ data_ := none, size_ := 5, capacity_ := 3 },
          [MemEvent.alloc 8 true, MemEvent.alloc 12 false, MemEvent.free]) := by decide
  refine ⟨by decide, by decide, by decide, h, ?_⟩
  rintro ⟨log, e⟩
  rw [h] at e
  injection e with e
  injection e with e1 _
  revert e1
  decide

/-- C17 as amended: `Vector` has no AllocationFailure result.  For a vector that owns a
buffer of `capacity() >= 2` cells with `size() <= capacity()` and an operation that
needs the grown buffer, when the
allocator returns the null handle `new_length` stores that handle and the grown
capacity unchecked: a `resize` with no element to copy completes with the region handle
null, the capacity `capacity + capacity/2`, the requested size and the old buffer
released; a `resize` with elements to copy and a `push_back` write through the null
handle, which is undefined behaviour; so does `push_back` on the default-constructed
vector when its first allocation fails. -/
theorem C17_allocation_failure_unreported {α : Type} (E : Env) (v : Vector α) (b : Buf α)
    (l : Nat) (x : α)
    (hb : v.data_ = some b) (hbl : b.length = v.capacity_) (hc2 : 2 ≤ v.capacity_)
    (hsz : v.size_ ≤ v.capacity_) (hlt : v.capacity_ + v.capacity_ / 2 < 2 ^ 64)
    (hfail : E.allocOk ((v.capacity_ + v.capacity_ / 2) * E.sizeofT % sizeMod) = false)
    (hl : v.capacity_ ≤ l) :
    (v.size_ = 0 → Vector.resize E v l
        = Except.ok ({ data_ := none, size_ := l, capacity_ := v.capacity_ + v.capacity_ / 2 },
            [MemEvent.alloc ((v.capacity_ + v.capacity_ / 2) * E.sizeofT % sizeMod) false,
              MemEvent.free]))
    ∧ (0 < v.size_ → Vector.resize E v l = Except.error Fault.nullDeref)
    ∧ (v.capacity_ ≤ v.size_ + 1 → Vector.push_back E v x = Except.error Fault.nullDeref)
    ∧ (E.allocOk (2 * E.sizeofT % sizeMod) = false →
        Vector.push_back E (Vector.init : Vector α) x = Except.error Fault.nullDeref) := by
  obtain ⟨h1, h2⟩ := Vector.new_length_alloc_fails E v b l hb hbl hc2 hlt hfail hl
  refine ⟨?_, ?_, ?_, ?_⟩
  · intro hz
    exact h1 (by rw [hz]; simp)
  · intro hz
    exact h2 (by omega)
  · intro hg
    have hm : (v.size_ + 1) % sizeMod = v.size_ + 1 :=
      Nat.mod_eq_of_lt (by simp only [sizeMod]; omega)
    obtain ⟨_, h3⟩ := Vector.new_length_alloc_fails E v b (v.size_ + 1) hb hbl hc2 hlt hfail hg
    simp only [Vector.push_back, hm, h3 (by omega), bind, Mem.bind]
  · intro hf0
    have halloc : (allocate E 2 : Mem (Ptr α))
        = Except.ok (none, [MemEvent.alloc (2 * E.sizeofT % sizeMod) false]) := by
      simp [allocate, hf0]
    simp [Vector.push_back, Vector.new_length, Vector.init, sizeMod, bind, Mem.bind, pure,
      Mem.pure, halloc, Mem.lift, Vector.store, Ptr.write, Except.bind]

/-- C17 as amended, at the vector holding 1 in a buffer of 2 cells, with an allocator
that refuses the 12 bytes of the grown buffer. -/
theorem C17_allocation_failure_unreported_witness :
    ((({ data_ := some [some 1, none], size_ := 1, capacity_ := 2 } : Vector Nat).data_
        = some [some 1, none])
      ∧ ([some 1, none] : Buf Nat).length = 2 ∧ 2 ≤ 2 ∧ 1 ≤ 2 ∧ 2 + 2 / 2 < 2 ^ 64
      ∧ smallHeapEnv.allocOk ((2 + 2 / 2) * smallHeapEnv.sizeofT % sizeMod) = false
      ∧ 2 ≤ 5)
    ∧ ((({ data_ := some [some 1, none], size_ := 1, capacity_ := 2 } : Vector Nat).size_ = 0 →
        Vector.resize smallHeapEnv
            ({ data_ := some [some 1, none], size_ := 1, capacity_ := 2 } : Vector Nat) 5
          = Except.ok ({ data_ := none, size_ := 5, capacity_ := 2 + 2 / 2 },
              [MemEvent.alloc ((2 + 2 / 2) * smallHeapEnv.sizeofT % sizeMod) false,
                MemEvent.free]))
      ∧ (0 < ({ data_ := some [some 1, none], size_ := 1, capacity_ := 2 } : Vector Nat).size_ →
          Vector.resize smallHeapEnv
            ({ data_ := some [some 1, none], size_ := 1, capacity_ := 2 } : Vector Nat) 5
          = Except.error Fault.nullDeref)
      ∧ (2 ≤ 1 + 1 →
          Vector.push_back smallHeapEnv
            ({ data_ := some [some 1, none], size_ := 1, capacity_ := 2 } : Vector Nat) 2
          = Except.error Fault.nullDeref)
      ∧ (smallHeapEnv.allocOk (2 * smallHeapEnv.sizeofT % sizeMod) = false →
          Vector.push_back smallHeapEnv (Vector.init : Vector Nat) 2
            = Except.error Fault.nullDeref)) :=
  ⟨⟨rfl, by decide, by decide, by decide, by decide, by decide, by decide⟩,
    C17_allocation_failure_unreported smallHeapEnv
      ({ data_ := some [some 1, none], size_ := 1, capacity_ := 2 } : Vector Nat)
      [some 1, none] 5 2 rfl (by decide) (by decide) (by decide) (by decide) (by decide)
      (by decide)⟩

end rics
